import Mathlib

/-!
Verification of the internal-linking engine of the auto-blog generator
(`src/tools/link_tools.py`).  Python strings are modelled as `List Char`,
content blocks as an inductive type mirroring the JSON block dicts, and the
Supabase tables touched by the link ledger as explicit lists of rows.
External judgment-service calls are modelled by an explicit outcome
parameter (HTTP/parse failure versus a parsed response), matching the
fail-open branches of the source.
-/

namespace BlogLink

/-- Shorthand turning a Lean string literal into the `List Char` model of a
Python `str`. -/
def cs (x : String) : List Char := x.toList

/-- The ASCII whitespace characters recognised by Python's `str.split`,
`str.strip` and the regex class `\s`. -/
def isPySpace (c : Char) : Bool :=
  c.toNat = 32 || c.toNat = 9 || c.toNat = 10 || c.toNat = 13 ||
    c.toNat = 11 || c.toNat = 12

/-- Python `str.lower` (ASCII range, as used throughout the source). -/
def pyLower (l : List Char) : List Char := l.map Char.toLower

/-- Python `str.strip()`: remove leading and trailing whitespace. -/
def pyStrip (l : List Char) : List Char :=
  ((l.dropWhile isPySpace).reverse.dropWhile isPySpace).reverse

/-- Worker for `pySplitWs`; accumulates the current word reversed. -/
def splitWsGo : List Char → List Char → List (List Char)
  | [], acc => if acc.isEmpty then [] else [acc.reverse]
  | c :: rest, acc =>
    if isPySpace c then
      if acc.isEmpty then splitWsGo rest []
      else acc.reverse :: splitWsGo rest []
    else splitWsGo rest (c :: acc)

/-- Python `str.split()` with no argument: split on whitespace runs,
discarding empty pieces. -/
def pySplitWs (l : List Char) : List (List Char) := splitWsGo l []

/-- Does `needle` occur at the head of `hay`?  (`hay.startswith(needle)`). -/
def headMatches : List Char → List Char → Bool
  | [], _ => true
  | _ :: _, [] => false
  | a :: as, b :: bs => a == b && headMatches as bs

/-- Python `needle in hay` for strings. -/
def containsSub : List Char → List Char → Bool
  | [], needle => needle.isEmpty
  | c :: rest, needle => headMatches needle (c :: rest) || containsSub rest needle

/-- Python `hay.find(needle)`, returning the first index or `none` for `-1`. -/
def findSub : List Char → List Char → Option Nat
  | [], needle => if needle.isEmpty then some 0 else none
  | c :: rest, needle =>
    if headMatches needle (c :: rest) then some 0
    else (findSub rest needle).map (· + 1)

/-- Number of (possibly overlapping) occurrence positions of `needle` in
`hay`; used to state uniqueness hypotheses. -/
def occCount : List Char → List Char → Nat
  | [], needle => if needle.isEmpty then 1 else 0
  | c :: rest, needle =>
    (if headMatches needle (c :: rest) then 1 else 0) + occCount rest needle

/-- Python space-joined words, as in the title-phrase builder. -/
def joinSpace : List (List Char) → List Char
  | [] => []
  | [w] => w
  | w :: ws => w ++ ' ' :: joinSpace ws

/-- The stop-word set of `extract_anchor_patterns`. -/
def stop_words : List (List Char) :=
  [cs "a", cs "an", cs "the", cs "how", cs "to", cs "what", cs "is",
   cs "are", cs "was", cs "were", cs "for", cs "of", cs "in", cs "on",
   cs "at", cs "by", cs "with", cs "your", cs "my", cs "our", cs "this",
   cs "that", cs "these", cs "those", cs "and", cs "or", cs "but", cs "so",
   cs "complete", cs "guide", cs "ultimate", cs "best", cs "top", cs "tips",
   cs "tricks", cs "beginners", cs "beginner", cs "advanced", cs "simple",
   cs "easy", cs "quick"]

/-- One character of `re.sub(r'[^\w\s]', ' ', title)`: non-word,
non-whitespace characters become spaces. -/
def cleanTitleChar (c : Char) : Char :=
  if c.isAlphanum || c == '_' || isPySpace c then c else ' '

/-- The bigram pass of `extract_anchor_patterns`: walk adjacent core-word
pairs, appending each new bigram longer than five characters. -/
def bigramPass : List (List Char) → List (List Char) → List (List Char)
  | a :: b :: rest, pats =>
    let bigram := a ++ ' ' :: b
    let pats' :=
      if !(pats.contains bigram) && decide (bigram.length > 5)
      then pats ++ [bigram] else pats
    bigramPass (b :: rest) pats'
  | _, pats => pats

/-- The single-word pass of `extract_anchor_patterns`: append core words
longer than four characters that are not yet present. -/
def singleWordPass (core : List (List Char)) (pats : List (List Char)) :
    List (List Char) :=
  core.foldl
    (fun ps w =>
      if decide (w.length > 4) && !(ps.contains w) then ps ++ [w] else ps)
    pats

/-- Model of `extract_anchor_patterns` from `src/tools/link_tools.py`:
deterministic fallback anchors extracted from a post title. -/
def extract_anchor_patterns (title : List Char) : List (List Char) :=
  let cleanTitle := (pyLower title).map cleanTitleChar
  let words := pySplitWs cleanTitle
  let core := words.filter fun w =>
    !(stop_words.contains w) && decide (w.length > 2)
  let pats0 : List (List Char) :=
    if core.length ≥ 2 then
      let phrase := joinSpace (core.take 3)
      if phrase.length > 5 then [phrase] else []
    else []
  let pats1 := bigramPass core pats0
  let pats2 := singleWordPass core pats1
  pats2.take 5

/-- The fixed generic-phrase list of `is_quality_anchor`. -/
def generic_terms : List (List Char) :=
  [cs "golf tips", cs "golf rules", cs "golf equipment", cs "golf courses",
   cs "golf clubs", cs "golf balls", cs "golf game", cs "golf swing",
   cs "the masters", cs "the open", cs "the pga", cs "pga tour",
   cs "ball striking", cs "club head", cs "swing speed",
   cs "how to golf", cs "golf basics", cs "golf guide", cs "golf help",
   cs "learn golf", cs "play golf", cs "playing golf",
   cs "tips and tricks", cs "best practices", cs "common mistakes",
   cs "quick tips", cs "easy tips", cs "simple tips"]

/-- Is a word capitalised in the sense of the proper-noun check
(`w[0].isupper()`, empty words skipped by the `if w` guard)? -/
def capInitial : List Char → Bool
  | [] => true
  | c :: _ => c.isUpper

/-- Model of `is_quality_anchor` from `src/tools/link_tools.py`. -/
def is_quality_anchor (anchor : List Char) : Bool :=
  if anchor.isEmpty then false
  else
    let anchorLower := pyStrip (pyLower anchor)
    let words := pySplitWs anchorLower
    if words.length < 2 then false
    else if anchorLower.length < 8 then false
    else if generic_terms.contains anchorLower then false
    else
      let originalWords := pySplitWs (pyStrip anchor)
      if originalWords.all capInitial && decide (originalWords.length < 3)
      then false
      else true

/-- Model of `filter_quality_anchors`. -/
def filter_quality_anchors (anchors : List (List Char)) : List (List Char) :=
  anchors.filter is_quality_anchor

/-- Kind-specific data of a content block, mirroring the `type`/`data`
dictionaries walked by the linking code.  Prose-bearing kinds are
`paragraph`, `listB` (type `"list"`, items that are strings), `callout`,
`accordion` (question/answer items) and `button`; every other kind is
opaque to the linking engine. -/
inductive BlockData
  | paragraph (text : List Char)
  | listB (items : List (List Char))
  | callout (text : List Char)
  | accordion (items : List (List Char × List Char))
  | button (url : List Char) (text : List Char) (newTab : Bool)
  | other
deriving DecidableEq

/-- A content block: the optional stable identifier and its data. -/
structure Block where
  id : Option (List Char)
  data : BlockData
deriving DecidableEq

/-- A caller-supplied link insertion request.  Absent optional string
fields are the empty string, matching the `.get(key, "")` defaults. -/
structure Insertion where
  anchor_text : List Char
  url : List Char
  target_title : List Char
  anti_patterns : List (List Char)
  block_id : Option (List Char)
deriving DecidableEq

/-- The link wrapper `<a href="URL">MATCH</a>` built by the Applier. -/
def linkHtml (url matched : List Char) : List Char :=
  cs "<a href=\"" ++ url ++ cs "\">" ++ matched ++ cs "</a>"

/-- Model of `find_and_replace_case_insensitive` (nested inside
`apply_link_insertions`): find `search` case-insensitively, skip if the
wrapped form already appears, and wrap the first occurrence preserving the
original casing. -/
def find_and_replace_case_insensitive (text search url : List Char) :
    List Char × Option (List Char) :=
  let searchLower := pyLower search
  let textLower := pyLower text
  if containsSub textLower (pyLower ('>' :: (search ++ cs "</a>"))) then
    (text, none)
  else
    match findSub textLower searchLower with
    | none => (text, none)
    | some pos =>
      let originalMatch := (text.drop pos).take search.length
      (text.take pos ++ linkHtml url originalMatch ++
         text.drop (pos + search.length),
       some originalMatch)

/-- An `applied` report entry of the Applier. -/
structure AppliedLink where
  anchor_text : List Char
  url : List Char
  block_id : Option (List Char)
deriving DecidableEq

/-- The two failure reasons reported by the apply loop: the literal strings
are "missing anchor_text or url" and "text not found or already linked". -/
inductive FailReason
  | missingField
  | notFound
deriving DecidableEq

/-- A `failed` report entry of the Applier. -/
structure FailedLink where
  anchor_text : List Char
  reason : FailReason
deriving DecidableEq

/-- The inner loop over list items: wrap the anchor in the first item where
it matches, leaving the remaining items untouched. -/
def replaceInItems (items : List (List Char)) (anchor url : List Char) :
    List (List Char) × Option (List Char) :=
  match items with
  | [] => ([], none)
  | item :: rest =>
    match find_and_replace_case_insensitive item anchor url with
    | (newItem, some m) => (newItem :: rest, some m)
    | (_, none) =>
      let (rest', r) := replaceInItems rest anchor url
      (item :: rest', r)

/-- One block step of the apply loop: attempt the replacement in the
block's prose text (paragraph text, list items, callout text). -/
def tryApplyBlock (b : Block) (anchor url : List Char) :
    Block × Option AppliedLink :=
  match b.data with
  | BlockData.paragraph text =>
    match find_and_replace_case_insensitive text anchor url with
    | (newText, some m) =>
      ({ b with data := BlockData.paragraph newText }, some ⟨m, url, b.id⟩)
    | _ => (b, none)
  | BlockData.listB items =>
    match replaceInItems items anchor url with
    | (items', some m) =>
      ({ b with data := BlockData.listB items' }, some ⟨m, url, b.id⟩)
    | _ => (b, none)
  | BlockData.callout text =>
    match find_and_replace_case_insensitive text anchor url with
    | (newText, some m) =>
      ({ b with data := BlockData.callout newText }, some ⟨m, url, b.id⟩)
    | _ => (b, none)
  | _ => (b, none)

/-- The `if block_id and block.get("id") != block_id: continue` guard
(an empty target id is falsy and disables the filter). -/
def bidSkip (bid : Option (List Char)) (b : Block) : Bool :=
  match bid with
  | none => false
  | some x => !(x.isEmpty) && !(b.id == some x)

/-- Scan the blocks in order for one insertion, stopping at the first
block where the replacement succeeds. -/
def applyInsertionBlocks (blocks : List Block) (anchor url : List Char)
    (bid : Option (List Char)) : List Block × Option AppliedLink :=
  match blocks with
  | [] => ([], none)
  | b :: rest =>
    if bidSkip bid b then
      let (rest', r) := applyInsertionBlocks rest anchor url bid
      (b :: rest', r)
    else
      match tryApplyBlock b anchor url with
      | (b', some a) => (b' :: rest, some a)
      | _ =>
        let (rest', r) := applyInsertionBlocks rest anchor url bid
        (b :: rest', r)

/-- Result of the application phase of `apply_link_insertions`. -/
structure ApplyOutcome where
  blocks : List Block
  applied : List AppliedLink
  failed : List FailedLink
deriving DecidableEq

/-- The `for insertion in insertions` application loop (source lines
1457-1511): strip the anchor and url, report a missing field, otherwise
attempt the first-match replacement and report applied or failed. -/
def applyInsertionsLoop : List Block → List Insertion → ApplyOutcome
  | blocks, [] => ⟨blocks, [], []⟩
  | blocks, ins :: rest =>
    let anchor := pyStrip ins.anchor_text
    let url := pyStrip ins.url
    if anchor.isEmpty || url.isEmpty then
      let o := applyInsertionsLoop blocks rest
      ⟨o.blocks, o.applied, ⟨anchor, FailReason.missingField⟩ :: o.failed⟩
    else
      match applyInsertionBlocks blocks anchor url ins.block_id with
      | (blocks', some a) =>
        let o := applyInsertionsLoop blocks' rest
        ⟨o.blocks, a :: o.applied, o.failed⟩
      | (blocks', none) =>
        let o := applyInsertionsLoop blocks' rest
        ⟨o.blocks, o.applied, ⟨anchor, FailReason.notFound⟩ :: o.failed⟩

/-- One rejection entry of the anti-pattern prefilter. -/
structure AntiRejected where
  anchor : List Char
  anti : List Char
deriving DecidableEq

/-- The overlap test of the prefilter: the anti-pattern is contained in the
anchor, or the anchor is contained in the anti-pattern (case-insensitive). -/
def antiOverlap (anchorLower : List Char) (anti : List Char) : Bool :=
  containsSub anchorLower (pyLower anti) ||
    containsSub (pyLower anti) anchorLower

/-- First anti-pattern overlapping the anchor, if any. -/
def firstAntiMatch (anchorLower : List Char) :
    List (List Char) → Option (List Char)
  | [] => none
  | anti :: rest =>
    if antiOverlap anchorLower anti then some anti
    else firstAntiMatch anchorLower rest

/-- The anti-pattern prefilter of `apply_link_insertions` (source lines
1323-1353): insertions carrying an overlapping anti-pattern are rejected
before any judgment-service call, the rest pass through in order. -/
def antiPass : List Insertion → List Insertion × List AntiRejected
  | [] => ([], [])
  | ins :: rest =>
    let (keep, rej) := antiPass rest
    if ins.anti_patterns.isEmpty then (ins :: keep, rej)
    else
      match firstAntiMatch (pyLower ins.anchor_text) ins.anti_patterns with
      | some anti => (keep, ⟨ins.anchor_text, anti⟩ :: rej)
      | none => (ins :: keep, rej)

/-- The anchor quality filter stage of `apply_link_insertions`: keep the
insertions whose anchor passes `is_quality_anchor`, collect the rest. -/
def qualityPass : List Insertion → List Insertion × List (List Char)
  | [] => ([], [])
  | ins :: rest =>
    let (keep, rej) := qualityPass rest
    if is_quality_anchor ins.anchor_text then (ins :: keep, rej)
    else (keep, ins.anchor_text :: rej)

/-- A link-target candidate sent to the Scorer (slug plus title). -/
structure Candidate where
  slug : List Char
  title : List Char
deriving DecidableEq

/-- One parsed evaluation from the scoring judgment response.  `score` is
`some n` when the JSON value is a number (a missing key defaults to `0`)
and `none` when it is present but non-numeric, in which case the
`isinstance` guard fails. -/
structure Evaluation where
  score : Option Int
  anchors : List (List Char)
  anti : List (List Char)
  intent : List Char
deriving DecidableEq

/-- Outcome of the scoring judgment call: `failure` covers an HTTP error,
a raised exception, and a body that does not parse as a JSON list; `parsed`
is a successfully parsed list of evaluations. -/
inductive ScoreOutcome
  | failure
  | parsed (evals : List Evaluation)
deriving DecidableEq

/-- A candidate as returned by the Scorer, with the keys the source adds to
the candidate dict.  `relevance_score = none` models the fallback path,
which never sets that key. -/
structure ScoredCandidate where
  cand : Candidate
  relevance_score : Option Int
  anchor_patterns : List (List Char)
  anti_patterns : List (List Char)
  semantic_intent : List Char
deriving DecidableEq

/-- The fail-open augmentation of one candidate: deterministic patterns
from the title, no anti-patterns, empty intent. -/
def fallbackScored (c : Candidate) : ScoredCandidate :=
  ⟨c, none, extract_anchor_patterns c.title, [], []⟩

/-- One step of the non-fallback scoring path: keep a candidate only when
its numeric score is at least 8 and a quality anchor is available (judged
anchors first, title-extracted anchors as a fallback). -/
def scoreKeepStep (c : Candidate) (e : Evaluation) : Option ScoredCandidate :=
  match e.score with
  | some n =>
    if n ≥ 8 then
      let qualityAnchors := filter_quality_anchors e.anchors
      let finalAnchors :=
        if qualityAnchors.isEmpty then
          filter_quality_anchors (extract_anchor_patterns c.title)
        else qualityAnchors
      if finalAnchors.isEmpty then none
      else some ⟨c, some n, finalAnchors, e.anti, e.intent⟩
    else none
  | none => none

/-- Model of `score_link_relevance`, with the judgment service call
abstracted into its outcome. -/
def score_link_relevance (cands : List Candidate) (outcome : ScoreOutcome) :
    List ScoredCandidate :=
  if cands.isEmpty then []
  else
    match outcome with
    | ScoreOutcome.failure => cands.map fallbackScored
    | ScoreOutcome.parsed evals =>
      if evals.length ≠ cands.length then cands.map fallbackScored
      else (cands.zip evals).filterMap fun p => scoreKeepStep p.1 p.2

/-- Sentence boundary characters of `extract_sentence_context`. -/
def isSentenceBound (c : Char) : Bool :=
  c == '.' || c == '!' || c == '?' || c == '\n'

/-- The backwards boundary scan `for i in range(pos - 1, stop, -1)`:
first index `i > stop` walking down whose character is a sentence
boundary, answering `i + 1`.  Structural recursion on the index (an index
of `0` is never `> stop`, so the scan is over). -/
def scanBackGo (text : List Char) (stop : Nat) : Nat → Option Nat
  | 0 => none
  | i + 1 =>
    if i + 1 ≤ stop then none
    else if isSentenceBound (text.getD (i + 1) ' ') then some (i + 2)
    else scanBackGo text stop i

/-- The forwards boundary scan `for i in range(pos + len, hi)`: first index
`i < hi` walking up whose character is a sentence boundary, answering
`i + 1`.  The fuel argument is instantiated with `hi - i`, which bounds the
number of loop steps. -/
def scanFwdGo (text : List Char) (hi : Nat) : Nat → Nat → Option Nat
  | 0, _ => none
  | fuel + 1, i =>
    if i ≥ hi then none
    else if isSentenceBound (text.getD i ' ') then some (i + 1)
    else scanFwdGo text hi fuel (i + 1)

/-- Model of `extract_sentence_context`: the smallest enclosing sentence of
the first case-insensitive occurrence of the anchor, bounded by a character
radius, stripped of surrounding whitespace. -/
def extract_sentence_context (text anchor : List Char)
    (contextChars : Nat := 150) : List Char :=
  match findSub (pyLower text) (pyLower anchor) with
  | none => []
  | some pos =>
    let stop := pos - contextChars
    let start :=
      match scanBackGo text stop (pos - 1) with
      | some s => s
      | none => stop
    let hi := min text.length (pos + contextChars)
    let endPos :=
      match scanFwdGo text hi (hi - (pos + anchor.length))
          (pos + anchor.length) with
      | some e => e
      | none => hi
    pyStrip ((text.drop start).take (endPos - start))

/-- The text the Validator searches in one block: paragraph text, callout
text, or the space-joined list items. -/
def blockSearchText (b : Block) : Option (List Char) :=
  match b.data with
  | BlockData.paragraph text => some text
  | BlockData.callout text => some text
  | BlockData.listB items => some (joinSpace items)
  | _ => none

/-- The per-insertion context search of `validate_link_contexts_batch`:
the context extracted from the first block whose text contains the anchor
case-insensitively, or the empty string. -/
def findContextBlocks (anchor : List Char) : List Block → List Char
  | [] => []
  | b :: rest =>
    match blockSearchText b with
    | some text =>
      if !(text.isEmpty) && containsSub (pyLower text) (pyLower anchor) then
        extract_sentence_context text anchor 150
      else findContextBlocks anchor rest
    | none => findContextBlocks anchor rest

/-- Outcome of the context-validation judgment call: `failure` covers an
HTTP error, a raised exception, and a body that does not parse as a JSON
list; `parsed` is a list whose entries stand for the truthiness of the
response items. -/
inductive ValidateOutcome
  | failure
  | parsed (answers : List Bool)
deriving DecidableEq

/-- The contexts list built in `validate_link_contexts_batch`. -/
def contextsFor (insertions : List Insertion) (blocks : List Block) :
    List (Insertion × List Char) :=
  insertions.map fun ins => (ins, findContextBlocks ins.anchor_text blocks)

/-- The response walk of `validate_link_contexts_batch`: insertions with a
context consume one answer index and are kept when the index is in range
and the answer truthy; insertions without a context are always kept. -/
def filterByAnswers :
    List (Insertion × List Char) → List Bool → Nat → List Insertion
  | [], _, _ => []
  | (ins, ctx) :: rest, answers, idx =>
    if ctx.isEmpty then ins :: filterByAnswers rest answers idx
    else
      (if decide (idx < answers.length) && answers.getD idx false
       then [ins] else []) ++ filterByAnswers rest answers (idx + 1)

/-- Model of `validate_link_contexts_batch`, with the judgment service call
abstracted into its outcome. -/
def validate_link_contexts_batch (insertions : List Insertion)
    (blocks : List Block) (outcome : ValidateOutcome) : List Insertion :=
  if insertions.isEmpty then []
  else
    let contexts := contextsFor insertions blocks
    let validations := contexts.filter fun p => !(p.2.isEmpty)
    if validations.isEmpty then insertions
    else
      match outcome with
      | ValidateOutcome.failure => insertions
      | ValidateOutcome.parsed answers => filterByAnswers contexts answers 0

/-- The context-validation split in `apply_link_insertions`: insertions
with a target title survive only when their (lowered anchor, url) pair was
validated; insertions without a title pass through. -/
def splitByValidated :
    List Insertion → List (List Char × List Char) →
      List Insertion × List Insertion
  | [], _ => ([], [])
  | ins :: rest, pairs =>
    let (keep, rej) := splitByValidated rest pairs
    if ins.target_title.isEmpty then (ins :: keep, rej)
    else if pairs.contains (pyLower ins.anchor_text, ins.url) then
      (ins :: keep, rej)
    else (keep, ins :: rej)

/-- The full report of one `apply_link_insertions` run over fresh content:
the mutated blocks, the applied/failed report, and the rejection lists of
the three filter stages.  `validatorInput` records which insertions were
submitted to the context Validator. -/
structure PipelineResult where
  blocks : List Block
  applied : List AppliedLink
  failed : List FailedLink
  antiRejected : List AntiRejected
  qualityRejected : List (List Char)
  contextRejected : List Insertion
  validatorInput : List Insertion
deriving DecidableEq

/-- Model of `apply_link_insertions` (source lines 1295-1563) after the
content fetch: anti-pattern prefilter, anchor quality filter, context
validation, then the first-match application loop. -/
def apply_link_insertions (blocks : List Block) (insertions : List Insertion)
    (outcome : ValidateOutcome) : PipelineResult :=
  let afterAnti := (antiPass insertions).1
  let antiRej := (antiPass insertions).2
  let afterQuality := (qualityPass afterAnti).1
  let qualRej := (qualityPass afterAnti).2
  let withTitles := afterQuality.filter fun i => !(i.target_title.isEmpty)
  let surviving :=
    if withTitles.isEmpty then (afterQuality, ([] : List Insertion))
    else
      let validated := validate_link_contexts_batch withTitles blocks outcome
      let validatedPairs := validated.map fun i => (pyLower i.anchor_text, i.url)
      splitByValidated afterQuality validatedPairs
  let o := applyInsertionsLoop blocks surviving.1
  ⟨o.blocks, o.applied, o.failed, antiRej, qualRej, surviving.2, withTitles⟩

/-- Length of the longest run of characters satisfying `p` at the head. -/
def countLeading (p : Char → Bool) (l : List Char) : Nat :=
  (l.takeWhile p).length

/-- Model of `is_internal_url`: a relative path, not protocol-relative. -/
def is_internal_url (url : List Char) : Bool :=
  headMatches (cs "/") url && !(headMatches (cs "//") url)

/-- The scheme-removal step of `urlparse` (ASCII happy path): drop a
leading `scheme:` when the scheme is well formed. -/
def schemeSplit (url : List Char) : List Char :=
  match findSub url [':'] with
  | some n =>
    let sch := url.take n
    if !sch.isEmpty && (sch.headD ' ').isAlpha &&
        sch.all (fun c => c.isAlphanum || c == '+' || c == '-' || c == '.')
    then url.drop (n + 1) else url
  | none => url

/-- Model of `extract_domain` via `urlparse` on the ASCII happy path:
the lowered netloc of an absolute URL with a `www.` prefix stripped,
`none` when the URL carries no netloc. -/
def extract_domain (url : List Char) : Option (List Char) :=
  let rest := schemeSplit url
  if headMatches (cs "//") rest then
    let after := rest.drop 2
    let netloc := after.takeWhile fun c => !(c == '/' || c == '?' || c == '#')
    let domain := pyLower netloc
    let domain' :=
      if headMatches (cs "www.") domain then domain.drop 4 else domain
    if domain'.isEmpty then none else some domain'
  else none

/-- One row of the `blog_post_links` ledger as built by
`extract_links_from_content` (`link_type_internal` stands for the
`link_type` column being `"internal"` rather than `"external"`). -/
structure LinkRecord where
  post_id : List Char
  url : List Char
  anchor_text : Option (List Char)
  link_type_internal : Bool
  domain : Option (List Char)
  opens_new_tab : Bool
  is_nofollow : Bool
  linked_post_id : Option (List Char)
deriving DecidableEq

/-- Worker for `stripTags`, with fuel bounded by the text length: remove
every `<[^>]+>` span, leftmost first. -/
def stripTagsGo : Nat → List Char → List Char
  | 0, l => l
  | _, [] => []
  | fuel + 1, c :: rest =>
    if c == '<' then
      let inner := rest.takeWhile fun x => !(x == '>')
      let rest' := rest.drop inner.length
      if !inner.isEmpty && headMatches (cs ">") rest' then
        stripTagsGo fuel (rest'.drop 1)
      else c :: stripTagsGo fuel rest
    else c :: stripTagsGo fuel rest

/-- The inner-HTML strip `re.sub(r'<[^>]+>', '', s)`. -/
def stripTags (l : List Char) : List Char := stripTagsGo l.length l

/-- Is the character one of the regex quote classes `["']`? -/
def isQuoteChar (c : Char) : Bool := c == '"' || c == '\''

/-- Does `p` hold of some suffix of the list? -/
def anyTail (p : List Char → Bool) : List Char → Bool
  | [] => p []
  | c :: rest => p (c :: rest) || anyTail p rest

/-- Match of `target=["']_blank["']` at the head of a lowered tag. -/
def targetBlankHere (s : List Char) : Bool :=
  headMatches (cs "target=") s && isQuoteChar (s.getD 7 ' ') &&
    headMatches (cs "_blank") (s.drop 8) && isQuoteChar (s.getD 14 ' ')

/-- The `target_pattern.search(full_tag)` check. -/
def hasTargetBlank (tag : List Char) : Bool :=
  anyTail targetBlankHere (pyLower tag)

/-- Match of `rel=["'][^"']*nofollow[^"']*["']` at the head of a lowered
tag: a quote-free run containing `nofollow`, closed by a quote. -/
def relNofollowHere (s : List Char) : Bool :=
  headMatches (cs "rel=") s &&
    (match s.drop 4 with
     | q :: s2 =>
       isQuoteChar q &&
         (let run := s2.takeWhile fun c => !(isQuoteChar c)
          containsSub run (cs "nofollow") && !(s2.drop run.length).isEmpty)
     | [] => false)

/-- The `nofollow_pattern.search(full_tag)` check. -/
def hasRelNofollow (tag : List Char) : Bool :=
  anyTail relNofollowHere (pyLower tag)

/-- The tail `href=["']([^"']+)["'][^>]*>(.*?)</a>` of the general anchor
pattern, attempted at the head of `s2`; answers `(url, inner, remaining)`.
Each quantifier is resolved deterministically: the greedy `[^"']+` and
`[^>]*` runs stop at the first excluded character, the lazy `(.*?)` stops
at the first `</a>`. -/
def tryHrefTail (s2 : List Char) : Option (List Char × List Char × List Char) :=
  if headMatches (cs "href=") (pyLower (s2.take 5)) then
    match s2.drop 5 with
    | q1 :: s3 =>
      if isQuoteChar q1 then
        let urlLen := countLeading (fun c => !(isQuoteChar c)) s3
        if urlLen = 0 then none
        else
          match s3.drop urlLen with
          | q2 :: s5 =>
            if isQuoteChar q2 then
              let gap := countLeading (fun c => !(c == '>')) s5
              match s5.drop gap with
              | gt :: s7 =>
                if gt == '>' then
                  match findSub (pyLower s7) (cs "</a>") with
                  | some k => some (s3.take urlLen, s7.take k, s7.drop (k + 4))
                  | none => none
                else none
              | [] => none
            else none
          | [] => none
      else none
    | [] => none
  else none

/-- The backtracking search over the split of `\s+[^>]*` before `href=`:
`q` counts the characters after `<a` consumed before `href=`, tried from
the regex's greedy maximum downwards. -/
def tryTagQ (rest : List Char) :
    Nat → Option (List Char × List Char × List Char)
  | 0 => none
  | q + 1 =>
    match tryHrefTail (rest.drop (q + 1)) with
    | some r => some r
    | none => tryTagQ rest q

/-- Attempt the full anchor pattern
`<a\s+[^>]*href=["']([^"']+)["'][^>]*>(.*?)</a>` (IGNORECASE, DOTALL) at
the head of `s`; answers `(url, inner, full tag, remaining)`. -/
def tryTagAt (s : List Char) :
    Option (List Char × List Char × List Char × List Char) :=
  match s with
  | c0 :: c1 :: rest =>
    if c0 == '<' && c1.toLower == 'a' &&
        decide (countLeading isPySpace rest ≥ 1) then
      let maxQ := 1 + countLeading (fun c => !(c == '>')) (rest.drop 1)
      match tryTagQ rest maxQ with
      | some (url, inner, rem) =>
        some (url, inner, s.take (s.length - rem.length), rem)
      | none => none
    else none
  | _ => none

/-- The `anchor_pattern.finditer` scan: all non-overlapping matches,
leftmost first, as `(url, inner, full tag)` triples. -/
def scanTags : Nat → List Char → List (List Char × List Char × List Char)
  | 0, _ => []
  | _, [] => []
  | fuel + 1, c :: rest =>
    match tryTagAt (c :: rest) with
    | some (url, inner, fullTag, rem) =>
      (url, inner, fullTag) :: scanTags fuel rem
    | none => scanTags fuel rest

/-- Build one ledger record from a matched anchor tag. -/
def mkTextLinkRecord (post_id url inner fullTag : List Char) : LinkRecord :=
  let a := pyStrip (stripTags inner)
  { post_id := post_id
    url := url
    anchor_text := if a.isEmpty then none else some (a.take 255)
    link_type_internal := is_internal_url url
    domain := if is_internal_url url then none else extract_domain url
    opens_new_tab := hasTargetBlank fullTag
    is_nofollow := hasRelNofollow fullTag
    linked_post_id := none }

/-- All ledger records from the anchor tags of one prose text. -/
def textLinks (post_id text : List Char) : List LinkRecord :=
  (scanTags text.length text).map fun m =>
    mkTextLinkRecord post_id m.1 m.2.1 m.2.2

/-- The records contributed by one block in
`extract_links_from_content`: paragraph/callout text and list items are
scanned for anchor tags, button blocks contribute their URL directly. -/
def blockLinks (post_id : List Char) (b : Block) : List LinkRecord :=
  match b.data with
  | BlockData.paragraph text => textLinks post_id text
  | BlockData.listB items => (items.map (textLinks post_id)).flatten
  | BlockData.button url text newTab =>
    if url.isEmpty then []
    else
      [{ post_id := post_id
         url := url
         anchor_text := some (text.take 255)
         link_type_internal := is_internal_url url
         domain := if is_internal_url url then none else extract_domain url
         opens_new_tab := newTab
         is_nofollow := false
         linked_post_id := none }]
  | BlockData.callout text => textLinks post_id text
  | BlockData.accordion items =>
    (items.map fun it => textLinks post_id it.2).flatten
  | BlockData.other => []

/-- Model of `extract_links_from_content`. -/
def extract_links_from_content (content : List Block) (post_id : List Char) :
    List LinkRecord :=
  (content.map (blockLinks post_id)).flatten

/-- Model of `resolve_internal_link_post_ids` on its happy path.  The slug
extraction depends on the `INTERNAL_LINK_PATTERN` environment
configuration, which is not part of the source tree, so it is passed in as
`slugOf`; `slugToId` stands for the batched slug lookup. -/
def resolve_internal_link_post_ids (links : List LinkRecord)
    (slugOf : List Char → Option (List Char))
    (slugToId : List Char → Option (List Char)) : List LinkRecord :=
  links.map fun l =>
    if l.link_type_internal then
      match slugOf l.url with
      | some slug => { l with linked_post_id := slugToId slug }
      | none => l
    else l

/-- Model of `save_post_links` acting on the ledger rows of the
`blog_post_links` table: extract, return immediately when no link was
found, otherwise resolve and replace the article's rows (delete by
`post_id`, then insert).  Answers the new ledger and the saved count. -/
def save_post_links (ledger : List LinkRecord) (post_id : List Char)
    (content : List Block) (slugOf slugToId : List Char → Option (List Char)) :
    List LinkRecord × Nat :=
  let links := extract_links_from_content content post_id
  if links.isEmpty then (ledger, 0)
  else
    let links' := resolve_internal_link_post_ids links slugOf slugToId
    (ledger.filter (fun r => !(r.post_id == post_id)) ++ links', links'.length)

/-- Attempt the internal-link pattern
`<a\s+href="(/[^"]*)"[^>]*>([^<]*)</a>` (IGNORECASE) at the head of `s`;
answers `(inner, remaining)`.  Every quantifier is deterministic here:
maximal whitespace must be followed by `href="`, the URL group runs to the
first `"` and must start with `/`, `[^>]*` runs to the first `>`, and
`[^<]*` runs to the first `<`, which must open `</a>`. -/
def tryInternalTagAt (s : List Char) : Option (List Char × List Char) :=
  match s with
  | c0 :: c1 :: rest =>
    if c0 == '<' && c1.toLower == 'a' then
      let ws := countLeading isPySpace rest
      if ws = 0 then none
      else
        let s2 := rest.drop ws
        if headMatches (cs "href=\"") (pyLower (s2.take 6)) then
          let s3 := s2.drop 6
          if s3.headD ' ' == '/' then
            let urlLen := countLeading (fun c => !(c == '"')) s3
            match s3.drop urlLen with
            | '"' :: s5 =>
              let gap := countLeading (fun c => !(c == '>')) s5
              match s5.drop gap with
              | '>' :: s7 =>
                let innerLen := countLeading (fun c => !(c == '<')) s7
                let s8 := s7.drop innerLen
                if headMatches (cs "</a>") (pyLower (s8.take 4)) then
                  some (s7.take innerLen, s8.drop 4)
                else none
              | _ => none
            | _ => none
          else none
        else none
    else none
  | _ => none

/-- Worker for `strip_internal_links`: replace every internal-link tag by
its inner text, counting the replacements. -/
def stripInternalGo : Nat → List Char → List Char × Nat
  | 0, l => (l, 0)
  | _, [] => ([], 0)
  | fuel + 1, c :: rest =>
    match tryInternalTagAt (c :: rest) with
    | some (inner, rem) =>
      let (t, n) := stripInternalGo fuel rem
      (inner ++ t, n + 1)
    | none =>
      let (t, n) := stripInternalGo fuel rest
      (c :: t, n)

/-- Model of the nested `strip_internal_links` helper of
`remove_internal_links_from_post`. -/
def strip_internal_links (text : List Char) : List Char × Nat :=
  stripInternalGo text.length text

/-- One block step of `remove_internal_links_from_post`: paragraph, list
and callout blocks are cleaned, every other kind is left alone. -/
def removeInternalBlock (b : Block) : Block × Nat :=
  match b.data with
  | BlockData.paragraph text =>
    let r := strip_internal_links text
    (if r.2 > 0 then { b with data := BlockData.paragraph r.1 } else b, r.2)
  | BlockData.listB items =>
    let items' := items.map fun it =>
      let r := strip_internal_links it
      if r.2 > 0 then r.1 else it
    let total := (items.map fun it => (strip_internal_links it).2).sum
    ({ b with data := BlockData.listB items' }, total)
  | BlockData.callout text =>
    let r := strip_internal_links text
    (if r.2 > 0 then { b with data := BlockData.callout r.1 } else b, r.2)
  | _ => (b, 0)

/-- Model of `remove_internal_links_from_post` acting on the article's
content and the ledger: strip every internal-link tag from the prose
blocks; when nothing was removed the content write and the ledger delete
are skipped, otherwise the cleaned content is saved and the article's
internal rows are deleted.  Answers (content, ledger, removed count). -/
def remove_internal_links_from_post (post_id : List Char)
    (content : List Block) (ledger : List LinkRecord) :
    List Block × List LinkRecord × Nat :=
  let results := content.map removeInternalBlock
  let total := (results.map Prod.snd).sum
  if total = 0 then (content, ledger, 0)
  else
    (results.map Prod.fst,
     ledger.filter (fun r => !(r.post_id == post_id && r.link_type_internal)),
     total)

/-- The tail `href=["'](URL)["'][^>]*>([^<]*)</a>` of the single-link
pattern built by `remove_single_link_by_id`, attempted at the head of
`s2`; `lurl` is the lowered recorded URL (the pattern is IGNORECASE and
the URL is escaped into a literal).  Answers `(inner, remaining)`. -/
def trySpecificHrefTail (lurl : List Char) (s2 : List Char) :
    Option (List Char × List Char) :=
  if headMatches (cs "href=") (pyLower (s2.take 5)) then
    match s2.drop 5 with
    | q1 :: s3 =>
      if isQuoteChar q1 then
        if headMatches lurl (pyLower (s3.take lurl.length)) then
          match s3.drop lurl.length with
          | q2 :: s5 =>
            if isQuoteChar q2 then
              let gap := countLeading (fun c => !(c == '>')) s5
              match s5.drop gap with
              | gt :: s7 =>
                if gt == '>' then
                  let innerLen := countLeading (fun c => !(c == '<')) s7
                  let s8 := s7.drop innerLen
                  if headMatches (cs "</a>") (pyLower (s8.take 4)) then
                    some (s7.take innerLen, s8.drop 4)
                  else none
                else none
              | [] => none
            else none
          | [] => none
        else none
      else none
    | [] => none
  else none

/-- Backtracking over the `\s+[^>]*` split for the single-link pattern. -/
def trySpecificQ (lurl : List Char) (rest : List Char) :
    Nat → Option (List Char × List Char)
  | 0 => none
  | q + 1 =>
    match trySpecificHrefTail lurl (rest.drop (q + 1)) with
    | some r => some r
    | none => trySpecificQ lurl rest q

/-- Attempt the full single-link pattern
`<a\s+[^>]*href=["'](URL)["'][^>]*>([^<]*)</a>` (IGNORECASE) at the head
of `s`. -/
def trySpecificTagAt (lurl : List Char) (s : List Char) :
    Option (List Char × List Char) :=
  match s with
  | c0 :: c1 :: rest =>
    if c0 == '<' && c1.toLower == 'a' &&
        decide (countLeading isPySpace rest ≥ 1) then
      let maxQ := 1 + countLeading (fun c => !(c == '>')) (rest.drop 1)
      trySpecificQ lurl rest maxQ
    else none
  | _ => none

/-- Worker for `strip_specific_link`: replace the first match of the
single-link pattern by its inner text. -/
def stripSpecificGo (lurl : List Char) : Nat → List Char → Option (List Char)
  | 0, _ => none
  | _, [] => none
  | fuel + 1, c :: rest =>
    match trySpecificTagAt lurl (c :: rest) with
    | some (inner, rem) => some (inner ++ rem)
    | none => (stripSpecificGo lurl fuel rest).map (c :: ·)

/-- Model of the nested `strip_specific_link` helper of
`remove_single_link_by_id`: remove the first tag carrying the recorded
URL, answering the cleaned text and whether a match was found. -/
def strip_specific_link (url text : List Char) : List Char × Bool :=
  match stripSpecificGo (pyLower url) text.length text with
  | some t => (t, true)
  | none => (text, false)

/-- The list-items walk of `remove_single_link_by_id`: clean the first
item containing the link, keep the rest. -/
def removeSingleItems (url : List Char) :
    List (List Char) → List (List Char) × Bool
  | [] => ([], false)
  | it :: rest =>
    let r := strip_specific_link url it
    if r.2 then (r.1 :: rest, true)
    else
      let (rest', f) := removeSingleItems url rest
      (it :: rest', f)

/-- The accordion walk of `remove_single_link_by_id`: clean the first
answer containing the link. -/
def removeSingleAcc (url : List Char) :
    List (List Char × List Char) → List (List Char × List Char) × Bool
  | [] => ([], false)
  | qa :: rest =>
    let r := strip_specific_link url qa.2
    if r.2 then ((qa.1, r.1) :: rest, true)
    else
      let (rest', f) := removeSingleAcc url rest
      (qa :: rest', f)

/-- One block step of `remove_single_link_by_id`. -/
def removeSingleFromBlock (url : List Char) (b : Block) : Block × Bool :=
  match b.data with
  | BlockData.paragraph text =>
    let r := strip_specific_link url text
    (if r.2 then { b with data := BlockData.paragraph r.1 } else b, r.2)
  | BlockData.listB items =>
    let r := removeSingleItems url items
    (if r.2 then { b with data := BlockData.listB r.1 } else b, r.2)
  | BlockData.callout text =>
    let r := strip_specific_link url text
    (if r.2 then { b with data := BlockData.callout r.1 } else b, r.2)
  | BlockData.accordion items =>
    let r := removeSingleAcc url items
    (if r.2 then { b with data := BlockData.accordion r.1 } else b, r.2)
  | _ => (b, false)

/-- The block walk of `remove_single_link_by_id`: the loop stops at the
first block from which the link was removed. -/
def removeSingleWalk (url : List Char) : List Block → List Block × Bool
  | [] => ([], false)
  | b :: rest =>
    let r := removeSingleFromBlock url b
    if r.2 then (r.1 :: rest, true)
    else
      let (rest', f) := removeSingleWalk url rest
      (b :: rest', f)

/-- A ledger row together with its database identifier. -/
structure LedgerRow where
  rid : List Char
  entry : LinkRecord
deriving DecidableEq

/-- The `id=eq.link_id` fetch: first row with the identifier. -/
def findRow (rid : List Char) : List LedgerRow → Option LedgerRow
  | [] => none
  | row :: rest => if row.rid == rid then some row else findRow rid rest

/-- Result of `remove_single_link_by_id`. -/
inductive RemoveSingleResult
  | errNotFound
  | errNoPost
  | ok (content : List Block) (ledger : List LedgerRow) (removed : Bool)
deriving DecidableEq

/-- Model of `remove_single_link_by_id`: fetch the ledger row, fetch the
post content, remove the first content occurrence of a tag carrying the
row's URL, and delete that ledger row. -/
def remove_single_link_by_id (db : List LedgerRow)
    (getContent : List Char → Option (List Block)) (link_id : List Char) :
    RemoveSingleResult :=
  match findRow link_id db with
  | none => RemoveSingleResult.errNotFound
  | some row =>
    match getContent row.entry.post_id with
    | none => RemoveSingleResult.errNoPost
    | some content =>
      if content.isEmpty then
        RemoveSingleResult.ok content
          (db.filter (fun r => !(r.rid == link_id))) false
      else
        let r := removeSingleWalk row.entry.url content
        RemoveSingleResult.ok r.1
          (db.filter (fun r => !(r.rid == link_id))) r.2

/-- The prose texts of one block scanned by the apply loop, in scan
order. -/
def blockTexts (b : Block) : List (List Char) :=
  match b.data with
  | BlockData.paragraph text => [text]
  | BlockData.listB items => items
  | BlockData.callout text => [text]
  | _ => []

/-- All prose texts scanned by the apply loop, in scan order. -/
def proseTexts (blocks : List Block) : List (List Char) :=
  (blocks.map blockTexts).flatten

/-- The texts walked by `remove_single_link_by_id` in one block (it also
covers accordion answers). -/
def singleTexts (b : Block) : List (List Char) :=
  match b.data with
  | BlockData.paragraph text => [text]
  | BlockData.listB items => items
  | BlockData.callout text => [text]
  | BlockData.accordion items => items.map Prod.snd
  | _ => []

/-- The claim-side reading of "the anchor has no case-insensitive,
not-already-linked occurrence in this text", using the source's own
definition of "already linked" (the wrapped form `>anchor</a>` appears in
the lowered text). -/
def noUnlinkedOcc (anchor t : List Char) : Bool :=
  containsSub (pyLower t) (pyLower ('>' :: (anchor ++ cs "</a>"))) ||
    !(containsSub (pyLower t) (pyLower anchor))

/-- Relation between a block and its updated form when the apply loop
wraps one anchor occurrence inside it: exactly one prose text (the first
matching one) is rewritten by `find_and_replace_case_insensitive`, and
the report entry carries the matched casing, the url and the block id. -/
def WrappedBlock (a u : List Char) (b b' : Block) (ap : AppliedLink) : Prop :=
  b'.id = b.id ∧ ap.block_id = b.id ∧ ap.url = u ∧
  ((∃ t, b.data = BlockData.paragraph t ∧
      (find_and_replace_case_insensitive t a u).2 = some ap.anchor_text ∧
      b'.data = BlockData.paragraph (find_and_replace_case_insensitive t a u).1) ∨
   (∃ is1 it is2, b.data = BlockData.listB (is1 ++ it :: is2) ∧
      (∀ x ∈ is1, (find_and_replace_case_insensitive x a u).2 = none) ∧
      (find_and_replace_case_insensitive it a u).2 = some ap.anchor_text ∧
      b'.data = BlockData.listB
        (is1 ++ (find_and_replace_case_insensitive it a u).1 :: is2)) ∨
   (∃ t, b.data = BlockData.callout t ∧
      (find_and_replace_case_insensitive t a u).2 = some ap.anchor_text ∧
      b'.data = BlockData.callout (find_and_replace_case_insensitive t a u).1))

theorem bool_eq_false {b : Bool} (h : ¬b = true) : b = false := by
  cases b
  · rfl
  · exact absurd rfl h

theorem headMatches_iff_take (n : List Char) :
    ∀ h, headMatches n h = true ↔ h.take n.length = n := by
  induction n with
  | nil => intro h; simp [headMatches]
  | cons a as ih =>
    intro h
    cases h with
    | nil => simp [headMatches]
    | cons b bs =>
      simp only [headMatches, Bool.and_eq_true, beq_iff_eq, List.length_cons,
        List.take_succ_cons, List.cons.injEq, ih]
      constructor
      · rintro ⟨h1, h2⟩; exact ⟨h1.symm, h2⟩
      · rintro ⟨h1, h2⟩; exact ⟨h1.symm, h2⟩

theorem headMatches_length {n h : List Char} (hm : headMatches n h = true) :
    n.length ≤ h.length := by
  have := (headMatches_iff_take n h).mp hm
  have hlen : (h.take n.length).length = n.length := by rw [this]
  simp only [List.length_take] at hlen
  omega

theorem headMatches_self_append (n t : List Char) :
    headMatches n (n ++ t) = true := by
  induction n with
  | nil => simp [headMatches]
  | cons a as ih => simp [headMatches, ih]

theorem headMatches_append_of {x y s : List Char}
    (hm : headMatches (x ++ y) s = true) : headMatches x s = true := by
  induction x generalizing s with
  | nil => simp [headMatches]
  | cons a as ih =>
    cases s with
    | nil => simp [headMatches] at hm
    | cons b bs =>
      simp only [List.cons_append, headMatches, Bool.and_eq_true] at hm ⊢
      exact ⟨hm.1, ih hm.2⟩

theorem headMatches_cons_tail {c : Char} {y s : List Char}
    (hm : headMatches (c :: y) s = true) :
    headMatches y (s.drop 1) = true := by
  cases s with
  | nil => simp [headMatches] at hm
  | cons b bs =>
    simp only [headMatches, Bool.and_eq_true] at hm
    simpa using hm.2

theorem containsSub_iff (n : List Char) :
    ∀ h, containsSub h n = true ↔ ∃ p, headMatches n (h.drop p) = true := by
  intro h
  induction h with
  | nil =>
    simp only [containsSub, List.isEmpty_iff, List.drop_nil]
    constructor
    · rintro rfl; exact ⟨0, by simp [headMatches]⟩
    · rintro ⟨p, hp⟩; cases n with
      | nil => rfl
      | cons a as => simp [headMatches] at hp
  | cons c rest ih =>
    simp only [containsSub, Bool.or_eq_true, ih]
    constructor
    · rintro (hm | ⟨p, hp⟩)
      · exact ⟨0, by simpa using hm⟩
      · exact ⟨p + 1, by simpa using hp⟩
    · rintro ⟨p, hp⟩
      cases p with
      | zero => exact Or.inl (by simpa using hp)
      | succ q => exact Or.inr ⟨q, by simpa using hp⟩

theorem containsSub_eq_false_iff (n h : List Char) :
    containsSub h n = false ↔ ∀ p, headMatches n (h.drop p) = false := by
  rw [← Bool.not_eq_true, containsSub_iff]
  push_neg
  simp only [Bool.not_eq_true]

theorem findSub_some_spec {h n : List Char} {p : Nat}
    (hf : findSub h n = some p) :
    headMatches n (h.drop p) = true ∧
      ∀ q, q < p → headMatches n (h.drop q) = false := by
  induction h generalizing p with
  | nil =>
    simp only [findSub] at hf
    by_cases hn : n.isEmpty
    · simp only [hn, if_true, Option.some.injEq] at hf
      subst hf
      refine ⟨?_, fun q hq => absurd hq (by omega)⟩
      cases n with
      | nil => simp [headMatches]
      | cons a as => simp at hn
    · simp [hn] at hf
  | cons c rest ih =>
    simp only [findSub] at hf
    by_cases hm : headMatches n (c :: rest) = true
    · simp only [hm, if_true, Option.some.injEq] at hf
      subst hf
      exact ⟨by simpa using hm, fun q hq => absurd hq (by omega)⟩
    · rw [if_neg hm] at hf
      cases hfr : findSub rest n with
      | none => simp [hfr] at hf
      | some q =>
        rw [hfr] at hf
        have hq : q + 1 = p := by simpa using hf
        subst hq
        obtain ⟨h1, h2⟩ := ih hfr
        refine ⟨by simpa using h1, ?_⟩
        intro r hr
        cases r with
        | zero => simpa using bool_eq_false hm
        | succ s =>
          have := h2 s (by omega)
          simpa using this

theorem findSub_none_spec {h n : List Char} (hf : findSub h n = none) :
    ∀ p, headMatches n (h.drop p) = false := by
  induction h with
  | nil =>
    intro p
    simp only [findSub] at hf
    by_cases hn : n.isEmpty
    · simp [hn] at hf
    · cases n with
      | nil => simp at hn
      | cons a as => simp [headMatches]
  | cons c rest ih =>
    intro p
    simp only [findSub] at hf
    by_cases hm : headMatches n (c :: rest) = true
    · simp [hm] at hf
    · rw [if_neg hm] at hf
      cases hfr : findSub rest n with
      | some q => simp [hfr] at hf
      | none =>
        cases p with
        | zero => simpa using bool_eq_false hm
        | succ q => simpa using ih hfr q

theorem findSub_eq_none_of_not_contains {h n : List Char}
    (hc : containsSub h n = false) : findSub h n = none := by
  cases hf : findSub h n with
  | none => rfl
  | some p =>
    obtain ⟨h1, _⟩ := findSub_some_spec hf
    have := (containsSub_eq_false_iff n h).mp hc p
    rw [this] at h1
    exact absurd h1 (by simp)

theorem findSub_isSome_of_headMatches {h n : List Char} {p : Nat}
    (hm : headMatches n (h.drop p) = true) : ∃ q, findSub h n = some q := by
  cases hf : findSub h n with
  | some q => exact ⟨q, rfl⟩
  | none =>
    have := findSub_none_spec hf p
    rw [this] at hm
    exact absurd hm (by simp)

theorem pyLower_append (x y : List Char) :
    pyLower (x ++ y) = pyLower x ++ pyLower y := by
  simp [pyLower]

theorem pyLower_drop (x : List Char) (n : Nat) :
    pyLower (x.drop n) = (pyLower x).drop n := by
  simp [pyLower, List.map_drop]

theorem pyLower_take (x : List Char) (n : Nat) :
    pyLower (x.take n) = (pyLower x).take n := by
  simp [pyLower, List.map_take]

theorem pyLower_length (x : List Char) : (pyLower x).length = x.length := by
  simp [pyLower]

theorem toNat_ofNat_of_valid {n : Nat} (h : n.isValidChar) :
    (Char.ofNat n).toNat = n := by
  rw [Char.ofNat, dif_pos h]
  rfl

theorem isPySpace_toLower (c : Char) :
    isPySpace (Char.toLower c) = isPySpace c := by
  have hdef : Char.toLower c =
      if c.toNat ≥ 65 ∧ c.toNat ≤ 90 then Char.ofNat (c.toNat + 32) else c :=
    rfl
  rw [hdef]
  by_cases h : c.toNat ≥ 65 ∧ c.toNat ≤ 90
  · rw [if_pos h]
    have hv : (Char.toNat c + 32).isValidChar := Or.inl (by omega)
    have ht := toNat_ofNat_of_valid hv
    have l : isPySpace (Char.ofNat (Char.toNat c + 32)) = false := by
      simp only [isPySpace, ht, Bool.or_eq_false_iff, decide_eq_false_iff_not]
      omega
    have r : isPySpace c = false := by
      simp only [isPySpace, Bool.or_eq_false_iff, decide_eq_false_iff_not]
      omega
    rw [l, r]
  · rw [if_neg h]

theorem splitWsGo_lower (l : List Char) :
    ∀ acc, splitWsGo (pyLower l) (pyLower acc) = (splitWsGo l acc).map pyLower := by
  induction l with
  | nil =>
    intro acc
    cases acc with
    | nil => simp [splitWsGo, pyLower]
    | cons a as => simp [splitWsGo, pyLower, List.map_reverse]
  | cons c rest ih =>
    intro acc
    show splitWsGo (Char.toLower c :: pyLower rest) (pyLower acc) = _
    rw [splitWsGo, splitWsGo, isPySpace_toLower]
    by_cases hs : isPySpace c
    · have hae : (pyLower acc).isEmpty = acc.isEmpty := by
        cases acc <;> simp [pyLower]
      by_cases ha : acc.isEmpty
      · have ha2 : acc = [] := List.isEmpty_iff.mp ha
        subst ha2
        have h1 := ih []
        simp only [pyLower, List.map_nil] at h1
        simp [hs, h1, pyLower]
      · have hane : acc ≠ [] := fun hx => by simp [hx] at ha
        have h1 := ih []
        simp only [pyLower, List.map_nil] at h1
        simp [hs, ha, hae, h1, pyLower, List.map_reverse, hane]
    · have h1 := ih (c :: acc)
      simp only [pyLower, List.map_cons] at h1
      simp [hs, h1, pyLower]

theorem pySplitWs_lower (l : List Char) :
    pySplitWs (pyLower l) = (pySplitWs l).map pyLower := by
  have := splitWsGo_lower l []
  simpa [pySplitWs, pyLower] using this

theorem splitWsGo_all_spaces {sp : List Char}
    (hsp : ∀ c ∈ sp, isPySpace c = true) :
    ∀ acc, splitWsGo sp acc = if acc.isEmpty then [] else [acc.reverse] := by
  induction sp with
  | nil => intro acc; rfl
  | cons c rest ih =>
    intro acc
    have hc : isPySpace c = true := hsp c (by simp)
    have hrest : ∀ x ∈ rest, isPySpace x = true := fun x hx => hsp x (by simp [hx])
    rw [splitWsGo, if_pos hc]
    by_cases ha : acc.isEmpty
    · rw [if_pos ha, if_pos ha, ih hrest]
      rfl
    · rw [if_neg ha, if_neg ha, ih hrest]
      rfl

theorem splitWsGo_append_spaces {sp : List Char}
    (hsp : ∀ c ∈ sp, isPySpace c = true) :
    ∀ l acc, splitWsGo (l ++ sp) acc = splitWsGo l acc := by
  intro l
  induction l with
  | nil =>
    intro acc
    rw [List.nil_append, splitWsGo_all_spaces hsp acc]
    rfl
  | cons c rest ih =>
    intro acc
    rw [List.cons_append, splitWsGo, splitWsGo]
    by_cases hc : isPySpace c
    · by_cases ha : acc.isEmpty
      · simp [hc, ha, ih]
      · simp [hc, ha, ih]
    · simp [hc, ih]

theorem splitWsGo_dropWhile_leading (l : List Char) :
    splitWsGo (l.dropWhile isPySpace) [] = splitWsGo l [] := by
  induction l with
  | nil => rfl
  | cons c rest ih =>
    by_cases hc : isPySpace c
    · rw [List.dropWhile_cons_of_pos hc, ih, splitWsGo]
      simp [hc]
    · rw [List.dropWhile_cons_of_neg hc]

theorem pyStrip_decomp (l : List Char) :
    ∃ sp, (∀ c ∈ sp, isPySpace c = true) ∧
      l.dropWhile isPySpace = pyStrip l ++ sp := by
  refine ⟨((l.dropWhile isPySpace).reverse.takeWhile isPySpace).reverse,
    ?_, ?_⟩
  · intro c hc
    rw [List.mem_reverse] at hc
    exact List.mem_takeWhile_imp hc
  · have h1 : (l.dropWhile isPySpace).reverse =
        (l.dropWhile isPySpace).reverse.takeWhile isPySpace ++
          (l.dropWhile isPySpace).reverse.dropWhile isPySpace :=
      (List.takeWhile_append_dropWhile isPySpace
        (l.dropWhile isPySpace).reverse).symm
    have h2 : l.dropWhile isPySpace =
        ((l.dropWhile isPySpace).reverse.dropWhile isPySpace).reverse ++
          ((l.dropWhile isPySpace).reverse.takeWhile isPySpace).reverse := by
      conv_lhs => rw [← List.reverse_reverse (l.dropWhile isPySpace), h1]
      rw [List.reverse_append]
    exact h2

theorem pySplitWs_pyStrip (l : List Char) :
    pySplitWs (pyStrip l) = pySplitWs l := by
  obtain ⟨sp, hsp, hdec⟩ := pyStrip_decomp l
  unfold pySplitWs
  rw [← splitWsGo_dropWhile_leading l, hdec, splitWsGo_append_spaces hsp]

theorem pyStrip_lower_comm (l : List Char) :
    pyStrip (pyLower l) = pyLower (pyStrip l) := by
  have hfun : (isPySpace ∘ Char.toLower) = isPySpace := by
    funext c; exact isPySpace_toLower c
  unfold pyStrip pyLower
  rw [List.dropWhile_map, hfun, ← List.map_reverse, List.dropWhile_map, hfun,
    ← List.map_reverse]

/-- C10: `is_quality_anchor` is a pure function that returns false exactly
when the anchor has fewer than 2 words, or fewer than 8 characters in its
whitespace-stripped form, or matches the fixed generic-phrase list, or
consists entirely of capitalized words with fewer than 3 words; in
particular `is_quality_anchor "golf" = false`,
`is_quality_anchor "The Masters" = false`, and
`is_quality_anchor "grip pressure mistakes" = true`. -/
theorem C10_quality_anchor_characterization :
    (∀ anchor : List Char,
      is_quality_anchor anchor = false ↔
        ((pySplitWs anchor).length < 2 ∨
         (pyStrip anchor).length < 8 ∨
         generic_terms.contains (pyLower (pyStrip anchor)) = true ∨
         ((pySplitWs anchor).all capInitial = true ∧
           (pySplitWs anchor).length < 3))) ∧
    is_quality_anchor (cs "golf") = false ∧
    is_quality_anchor (cs "The Masters") = false ∧
    is_quality_anchor (cs "grip pressure mistakes") = true := by
  refine ⟨?_, by decide, by decide, by decide⟩
  intro anchor
  have hA : pyStrip (pyLower anchor) = pyLower (pyStrip anchor) :=
    pyStrip_lower_comm anchor
  have hwords : (pySplitWs (pyLower (pyStrip anchor))).length =
      (pySplitWs anchor).length := by
    rw [pySplitWs_lower, List.length_map, pySplitWs_pyStrip]
  have hlen : (pyLower (pyStrip anchor)).length = (pyStrip anchor).length :=
    pyLower_length _
  have hcapw : pySplitWs (pyStrip anchor) = pySplitWs anchor :=
    pySplitWs_pyStrip anchor
  simp only [is_quality_anchor]
  rw [hA, hwords, hlen, hcapw]
  by_cases h0 : anchor.isEmpty
  · have h0e : anchor = [] := List.isEmpty_iff.mp h0
    subst h0e
    simp [pySplitWs, splitWsGo]
  · rw [if_neg h0]
    by_cases h1 : (pySplitWs anchor).length < 2
    · simp [h1]
    · rw [if_neg h1]
      by_cases h2 : (pyStrip anchor).length < 8
      · simp [h1, h2]
      · rw [if_neg h2]
        by_cases h3 : generic_terms.contains (pyLower (pyStrip anchor)) = true
        · have h3m : pyLower (pyStrip anchor) ∈ generic_terms := by
            simpa using h3
          simp [h1, h2, h3, h3m]
        · rw [if_neg h3]
          by_cases h4 : (pySplitWs anchor).all capInitial = true ∧
              (pySplitWs anchor).length < 3
          · rw [if_pos (by simp [h4.1, h4.2])]
            simp [h4]
          · rw [if_neg (by
              intro hcontra
              simp only [Bool.and_eq_true, decide_eq_true_eq] at hcontra
              exact h4 hcontra)]
            simp only [Bool.true_eq_false, false_iff]
            push_neg
            refine ⟨by omega, by omega, ?_, fun hall => ?_⟩
            · exact fun hc => h3 hc
            · by_contra hlt
              exact h4 ⟨hall, by omega⟩

/-- C6: whenever the scoring judgment call fails (service error,
unreachable, unparsable body) or parses into a list that does not hold
exactly one evaluation per candidate, the Scorer returns all input
candidates unfiltered, each carrying the deterministic title-extracted
anchor patterns, an empty anti-pattern list and empty semantic intent
(and no relevance score key). -/
theorem C6_scorer_fail_open (cands : List Candidate) (outcome : ScoreOutcome)
    (h : outcome = ScoreOutcome.failure ∨
      ∃ evals, outcome = ScoreOutcome.parsed evals ∧
        evals.length ≠ cands.length) :
    score_link_relevance cands outcome =
      cands.map fun c =>
        ⟨c, none, extract_anchor_patterns c.title, [], []⟩ := by
  rcases h with h | ⟨evals, rfl, hlen⟩
  · subst h
    by_cases hc : cands.isEmpty
    · have hce : cands = [] := List.isEmpty_iff.mp hc
      subst hce
      rfl
    · simp [score_link_relevance, hc, fallbackScored]
  · by_cases hc : cands.isEmpty
    · have hce : cands = [] := List.isEmpty_iff.mp hc
      subst hce
      rfl
    · simp [score_link_relevance, hc, hlen, fallbackScored]

theorem C6_scorer_fail_open_witness :
    ((ScoreOutcome.parsed [⟨some 9, [], [], []⟩] = ScoreOutcome.failure ∨
      ∃ evals, ScoreOutcome.parsed [⟨some 9, [], [], []⟩] =
          ScoreOutcome.parsed evals ∧
        evals.length ≠
          ([⟨cs "s1", cs "Golf Cart Maintenance Costs"⟩,
            ⟨cs "s2", cs "Driver Distance Basics"⟩] :
              List Candidate).length) ∧
     score_link_relevance
        [⟨cs "s1", cs "Golf Cart Maintenance Costs"⟩,
         ⟨cs "s2", cs "Driver Distance Basics"⟩]
        (ScoreOutcome.parsed [⟨some 9, [], [], []⟩]) =
      ([⟨cs "s1", cs "Golf Cart Maintenance Costs"⟩,
        ⟨cs "s2", cs "Driver Distance Basics"⟩] : List Candidate).map
        fun c => ⟨c, none, extract_anchor_patterns c.title, [], []⟩) :=
  ⟨Or.inr ⟨[⟨some 9, [], [], []⟩], rfl, by decide⟩,
   C6_scorer_fail_open _ _ (Or.inr ⟨[⟨some 9, [], [], []⟩], rfl, by decide⟩)⟩

/-- C8: on the non-fallback scoring path (a parsed response of the right
length), a candidate appears in the output only with a numeric judged
score of at least 8 and a nonempty list of anchor patterns every one of
which passes the Anchor Quality Filter; and a candidate step with no
quality anchor among the judged anchors nor among the title-extracted
fallback anchors is dropped entirely. -/
theorem C8_score_threshold_and_anchor_gate :
    (∀ (cands : List Candidate) (evals : List Evaluation),
      evals.length = cands.length →
      ∀ sc ∈ score_link_relevance cands (ScoreOutcome.parsed evals),
        (∃ n : Int, sc.relevance_score = some n ∧ 8 ≤ n) ∧
        sc.anchor_patterns ≠ [] ∧
        ∀ anc ∈ sc.anchor_patterns, is_quality_anchor anc = true) ∧
    (∀ (c : Candidate) (e : Evaluation),
      filter_quality_anchors e.anchors = [] →
      filter_quality_anchors (extract_anchor_patterns c.title) = [] →
      scoreKeepStep c e = none) := by
  constructor
  · intro cands evals hlen sc hsc
    by_cases hc : cands.isEmpty
    · have hce : cands = [] := List.isEmpty_iff.mp hc
      subst hce
      simp [score_link_relevance] at hsc
    · rw [score_link_relevance, if_neg (by simp [hc]), if_neg (by omega)]
        at hsc
      obtain ⟨⟨c, e⟩, hmem, hstep⟩ := List.mem_filterMap.mp hsc
      simp only [scoreKeepStep] at hstep
      cases hscore : e.score with
      | none => simp only [hscore] at hstep; exact absurd hstep (by simp)
      | some n =>
        simp only [hscore] at hstep
        by_cases hn : n ≥ 8
        · rw [if_pos hn] at hstep
          by_cases hfa :
              (if (filter_quality_anchors e.anchors).isEmpty = true then
                filter_quality_anchors (extract_anchor_patterns c.title)
              else filter_quality_anchors e.anchors).isEmpty = true
          · rw [if_pos hfa] at hstep
            exact absurd hstep (by simp)
          · rw [if_neg hfa] at hstep
            have hsc2 := Option.some.inj hstep
            subst hsc2
            refine ⟨⟨n, rfl, hn⟩, ?_, ?_⟩
            · show (if (filter_quality_anchors e.anchors).isEmpty = true then
                    filter_quality_anchors (extract_anchor_patterns c.title)
                  else filter_quality_anchors e.anchors) ≠ []
              intro hnil
              rw [hnil] at hfa
              exact hfa rfl
            · show ∀ anc ∈
                  (if (filter_quality_anchors e.anchors).isEmpty = true then
                    filter_quality_anchors (extract_anchor_patterns c.title)
                  else filter_quality_anchors e.anchors),
                  is_quality_anchor anc = true
              intro anc hanc
              by_cases hb : (filter_quality_anchors e.anchors).isEmpty = true
              · rw [if_pos hb] at hanc
                exact List.of_mem_filter hanc
              · rw [if_neg hb] at hanc
                exact List.of_mem_filter hanc
        · rw [if_neg hn] at hstep
          exact absurd hstep (by simp)
  · intro c e h1 h2
    simp only [scoreKeepStep]
    cases hscore : e.score with
    | none => simp [hscore]
    | some n =>
      simp only [hscore]
      by_cases hn : n ≥ 8
      · rw [if_pos hn, h1]
        simp [h2]
      · rw [if_neg hn]

theorem C8_score_threshold_and_anchor_gate_witness :
    (([⟨some 9, [cs "golf swing tips"], [], []⟩] :
        List Evaluation).length =
      ([⟨cs "s1", cs "Golf"⟩] : List Candidate).length ∧
     ∀ sc ∈ score_link_relevance [⟨cs "s1", cs "Golf"⟩]
        (ScoreOutcome.parsed [⟨some 9, [cs "golf swing tips"], [], []⟩]),
        (∃ n : Int, sc.relevance_score = some n ∧ 8 ≤ n) ∧
        sc.anchor_patterns ≠ [] ∧
        ∀ anc ∈ sc.anchor_patterns, is_quality_anchor anc = true) ∧
    (filter_quality_anchors
        (⟨some 9, [cs "golf"], [], []⟩ : Evaluation).anchors = [] ∧
     filter_quality_anchors
        (extract_anchor_patterns (⟨cs "s1", cs "Golf"⟩ : Candidate).title) =
          [] ∧
     scoreKeepStep ⟨cs "s1", cs "Golf"⟩ ⟨some 9, [cs "golf"], [], []⟩ =
      none) :=
  ⟨⟨by decide,
    C8_score_threshold_and_anchor_gate.1 _ _ (by decide)⟩,
   ⟨by decide, by decide,
    C8_score_threshold_and_anchor_gate.2 _ _ (by decide) (by decide)⟩⟩

theorem filterByAnswers_keeps_noContext
    (contexts : List (Insertion × List Char)) :
    ∀ (answers : List Bool) (idx : Nat) (ins : Insertion),
      (ins, ([] : List Char)) ∈ contexts →
      ins ∈ filterByAnswers contexts answers idx := by
  induction contexts with
  | nil => intro answers idx ins hmem; simp at hmem
  | cons p rest ih =>
    intro answers idx ins hmem
    cases hmem with
    | head =>
      rw [filterByAnswers]
      simp
    | tail _ hmem =>
      obtain ⟨ins0, ctx0⟩ := p
      rw [filterByAnswers]
      by_cases hc : ctx0.isEmpty
      · rw [if_pos hc]
        exact List.mem_cons_of_mem _ (ih answers idx ins hmem)
      · rw [if_neg hc]
        exact List.mem_append_right _ (ih answers (idx + 1) ins hmem)

theorem filterByAnswers_subset
    (contexts : List (Insertion × List Char)) :
    ∀ (answers : List Bool) (idx : Nat) (ins : Insertion),
      ins ∈ filterByAnswers contexts answers idx →
      ∃ ctx, (ins, ctx) ∈ contexts := by
  induction contexts with
  | nil => intro answers idx ins hmem; simp [filterByAnswers] at hmem
  | cons p rest ih =>
    intro answers idx ins hmem
    obtain ⟨ins0, ctx0⟩ := p
    rw [filterByAnswers] at hmem
    by_cases hc : ctx0.isEmpty
    · rw [if_pos hc] at hmem
      cases hmem with
      | head => exact ⟨ctx0, by simp⟩
      | tail _ hmem =>
        obtain ⟨ctx, hctx⟩ := ih answers idx ins hmem
        exact ⟨ctx, List.mem_cons_of_mem _ hctx⟩
    · rw [if_neg hc] at hmem
      rcases List.mem_append.mp hmem with hmem | hmem
      · by_cases hk : decide (idx < answers.length) && answers.getD idx false
        · rw [if_pos hk] at hmem
          rcases List.mem_singleton.mp hmem with rfl
          exact ⟨ctx0, by simp⟩
        · rw [if_neg hk] at hmem
          simp at hmem
      · obtain ⟨ctx, hctx⟩ := ih answers (idx + 1) ins hmem
        exact ⟨ctx, List.mem_cons_of_mem _ hctx⟩

/-- C7 (amended): the Context Validator approves and passes through every
insertion for which no context could be extracted from the content blocks;
when the judgment response is malformed (service error, exception, or a
body that is not a JSON list) it fails open by approving all submitted
insertions; a parsed list is consumed positionally, so its output is
always a subset of the input (a wrong-length list does not approve all:
context-bearing insertions whose index falls beyond the list are
dropped). -/
theorem C7_validator_amended :
    (∀ (inss : List Insertion) (blocks : List Block)
        (outcome : ValidateOutcome) (ins : Insertion),
      ins ∈ inss →
      findContextBlocks ins.anchor_text blocks = [] →
      ins ∈ validate_link_contexts_batch inss blocks outcome) ∧
    (∀ (inss : List Insertion) (blocks : List Block),
      validate_link_contexts_batch inss blocks ValidateOutcome.failure =
        inss) ∧
    (∀ (inss : List Insertion) (blocks : List Block) (answers : List Bool)
        (ins : Insertion),
      ins ∈ validate_link_contexts_batch inss blocks
          (ValidateOutcome.parsed answers) →
      ins ∈ inss) := by
  refine ⟨?_, ?_, ?_⟩
  · intro inss blocks outcome ins hmem hctx
    have hne : inss.isEmpty = false := by
      cases inss with
      | nil => simp at hmem
      | cons a rest => rfl
    rw [validate_link_contexts_batch, if_neg (by simp [hne])]
    by_cases hv : ((contextsFor inss blocks).filter
        fun p => !(p.2.isEmpty)).isEmpty
    · rw [if_pos hv]
      exact hmem
    · rw [if_neg hv]
      have hpair : (ins, ([] : List Char)) ∈ contextsFor inss blocks := by
        rw [contextsFor]
        rw [← hctx]
        exact List.mem_map_of_mem _ hmem
      cases outcome with
      | failure => exact hmem
      | parsed answers => exact filterByAnswers_keeps_noContext _ _ _ _ hpair
  · intro inss blocks
    by_cases hne : inss.isEmpty
    · rw [validate_link_contexts_batch, if_pos hne]
      exact (List.isEmpty_iff.mp hne).symm
    · rw [validate_link_contexts_batch, if_neg hne]
      by_cases hv : ((contextsFor inss blocks).filter
          fun p => !(p.2.isEmpty)).isEmpty
      · rw [if_pos hv]
      · rw [if_neg hv]
  · intro inss blocks answers ins hmem
    by_cases hne : inss.isEmpty
    · rw [validate_link_contexts_batch, if_pos hne] at hmem
      simp at hmem
    · rw [validate_link_contexts_batch, if_neg hne] at hmem
      by_cases hv : ((contextsFor inss blocks).filter
          fun p => !(p.2.isEmpty)).isEmpty
      · rw [if_pos hv] at hmem
        exact hmem
      · rw [if_neg hv] at hmem
        obtain ⟨ctx, hctx⟩ := filterByAnswers_subset _ _ _ _ hmem
        rw [contextsFor] at hctx
        obtain ⟨x, hx, hxeq⟩ := List.mem_map.mp hctx
        cases hxeq
        exact hx

theorem C7_validator_amended_witness :
    ((⟨cs "missing phrase", cs "/u", cs "T", [], none⟩ : Insertion) ∈
      ([⟨cs "missing phrase", cs "/u", cs "T", [], none⟩] :
        List Insertion) ∧
     findContextBlocks (cs "missing phrase")
        [⟨none, BlockData.paragraph (cs "nothing relevant here")⟩] = [] ∧
     (⟨cs "missing phrase", cs "/u", cs "T", [], none⟩ : Insertion) ∈
      validate_link_contexts_batch
        [⟨cs "missing phrase", cs "/u", cs "T", [], none⟩]
        [⟨none, BlockData.paragraph (cs "nothing relevant here")⟩]
        (ValidateOutcome.parsed [])) ∧
    validate_link_contexts_batch
      [⟨cs "missing phrase", cs "/u", cs "T", [], none⟩]
      [⟨none, BlockData.paragraph (cs "nothing relevant here")⟩]
      ValidateOutcome.failure =
      [⟨cs "missing phrase", cs "/u", cs "T", [], none⟩] :=
  ⟨⟨by decide, by decide,
    C7_validator_amended.1 _ _ _ _ (by decide) (by decide)⟩,
   C7_validator_amended.2.1 _ _⟩

/-- C7 (counterexample): with two insertions both yielding a context and a
parsed response holding only one boolean (not one boolean per submitted
item), the Validator does not fail open to approving all submitted
insertions: the second insertion is dropped. -/
theorem C7_counterexample_wrong_length :
    validate_link_contexts_batch
      [⟨cs "alpha beta", cs "/u1", cs "T1", [], none⟩,
       ⟨cs "gamma delta", cs "/u2", cs "T2", [], none⟩]
      [⟨none, BlockData.paragraph (cs "alpha beta. gamma delta.")⟩]
      (ValidateOutcome.parsed [true]) =
      [⟨cs "alpha beta", cs "/u1", cs "T1", [], none⟩] ∧
    validate_link_contexts_batch
      [⟨cs "alpha beta", cs "/u1", cs "T1", [], none⟩,
       ⟨cs "gamma delta", cs "/u2", cs "T2", [], none⟩]
      [⟨none, BlockData.paragraph (cs "alpha beta. gamma delta.")⟩]
      (ValidateOutcome.parsed [true]) ≠
      [⟨cs "alpha beta", cs "/u1", cs "T1", [], none⟩,
       ⟨cs "gamma delta", cs "/u2", cs "T2", [], none⟩] := by
  exact ⟨by decide, by decide⟩

theorem antiPass_cons (x : Insertion) (rest : List Insertion) :
    antiPass (x :: rest) =
      if x.anti_patterns.isEmpty then
        (x :: (antiPass rest).1, (antiPass rest).2)
      else
        match firstAntiMatch (pyLower x.anchor_text) x.anti_patterns with
        | some anti =>
          ((antiPass rest).1, ⟨x.anchor_text, anti⟩ :: (antiPass rest).2)
        | none => (x :: (antiPass rest).1, (antiPass rest).2) := by
  rw [antiPass]

theorem qualityPass_cons (x : Insertion) (rest : List Insertion) :
    qualityPass (x :: rest) =
      if is_quality_anchor x.anchor_text then
        (x :: (qualityPass rest).1, (qualityPass rest).2)
      else ((qualityPass rest).1, x.anchor_text :: (qualityPass rest).2) := by
  rw [qualityPass]

theorem firstAntiMatch_none_spec (al : List Char) :
    ∀ l, firstAntiMatch al l = none →
      ∀ anti ∈ l, antiOverlap al anti = false := by
  intro l
  induction l with
  | nil => intro _ anti hanti; simp at hanti
  | cons a rest ih =>
    intro hnone anti hanti
    rw [firstAntiMatch] at hnone
    by_cases ho : antiOverlap al a
    · rw [if_pos ho] at hnone
      exact absurd hnone (by simp)
    · rw [if_neg ho] at hnone
      cases hanti with
      | head => exact bool_eq_false ho
      | tail _ hanti => exact ih hnone anti hanti

theorem antiPass_keep_no_overlap :
    ∀ (inss : List Insertion) (ins : Insertion),
      ins ∈ (antiPass inss).1 →
      ∀ anti ∈ ins.anti_patterns,
        antiOverlap (pyLower ins.anchor_text) anti = false := by
  intro inss
  induction inss with
  | nil => intro ins hmem; simp [antiPass] at hmem
  | cons x rest ih =>
    intro ins hmem anti hanti
    rw [antiPass_cons] at hmem
    by_cases hx : x.anti_patterns.isEmpty
    · rw [if_pos hx] at hmem
      cases hmem with
      | head =>
        rw [List.isEmpty_iff.mp hx] at hanti
        simp at hanti
      | tail _ hmem => exact ih ins hmem anti hanti
    · rw [if_neg hx] at hmem
      cases hfa : firstAntiMatch (pyLower x.anchor_text) x.anti_patterns with
      | some a => rw [hfa] at hmem; exact ih ins hmem anti hanti
      | none =>
        rw [hfa] at hmem
        cases hmem with
        | head => exact firstAntiMatch_none_spec _ _ hfa anti hanti
        | tail _ hmem => exact ih ins hmem anti hanti

theorem antiPass_rejects_overlap :
    ∀ (inss : List Insertion) (ins : Insertion),
      ins ∈ inss →
      (∃ anti ∈ ins.anti_patterns,
        antiOverlap (pyLower ins.anchor_text) anti = true) →
      ∃ e ∈ (antiPass inss).2, e.anchor = ins.anchor_text := by
  intro inss
  induction inss with
  | nil => intro ins hmem; simp at hmem
  | cons x rest ih =>
    intro ins hmem hov
    cases hmem with
    | head =>
      obtain ⟨anti, hanti, hover⟩ := hov
      have hne : x.anti_patterns ≠ [] := by
        intro hnil
        rw [hnil] at hanti
        simp at hanti
      rw [antiPass_cons, if_neg (by simp [List.isEmpty_iff, hne])]
      cases hfa : firstAntiMatch (pyLower x.anchor_text)
          x.anti_patterns with
      | some a => exact ⟨⟨x.anchor_text, a⟩, by simp, rfl⟩
      | none =>
        have hfalse := firstAntiMatch_none_spec _ _ hfa anti hanti
        rw [hfalse] at hover
        exact absurd hover (by simp)
    | tail _ hmem =>
      obtain ⟨e, he, heq⟩ := ih ins hmem hov
      rw [antiPass_cons]
      by_cases hx : x.anti_patterns.isEmpty
      · rw [if_pos hx]
        exact ⟨e, he, heq⟩
      · rw [if_neg hx]
        cases hfa : firstAntiMatch (pyLower x.anchor_text)
            x.anti_patterns with
        | some a => exact ⟨e, List.mem_cons_of_mem _ he, heq⟩
        | none => exact ⟨e, he, heq⟩

theorem qualityPass_keep_subset :
    ∀ (inss : List Insertion) (ins : Insertion),
      ins ∈ (qualityPass inss).1 → ins ∈ inss := by
  intro inss
  induction inss with
  | nil => intro ins hmem; simp [qualityPass] at hmem
  | cons x rest ih =>
    intro ins hmem
    rw [qualityPass_cons] at hmem
    by_cases hq : is_quality_anchor x.anchor_text
    · rw [if_pos hq] at hmem
      cases hmem with
      | head => simp
      | tail _ hmem => exact List.mem_cons_of_mem _ (ih ins hmem)
    · rw [if_neg hq] at hmem
      exact List.mem_cons_of_mem _ (ih ins hmem)

theorem pipeline_validatorInput_eq (blocks : List Block)
    (inss : List Insertion) (outcome : ValidateOutcome) :
    (apply_link_insertions blocks inss outcome).validatorInput =
      (qualityPass (antiPass inss).1).1.filter
        fun i => !(i.target_title.isEmpty) := rfl

/-- C9 (amended): the anti-pattern prefilter runs deterministically before
the judgment-service call and before any content mutation, and rejects
exactly the insertions whose anchor text case-insensitively overlaps one
of their anti-patterns in the substring sense (one string containing the
other): every such insertion lands in the prefilter's rejection list and
never reaches the Validator; every insertion that survives the prefilter
has no overlapping anti-pattern.  The pair anchor "grip on the club" /
anti-pattern "grip technique" has no substring relationship in either
direction, so it is NOT rejected. -/
theorem C9_anti_prefilter_amended :
    (∀ (inss : List Insertion) (ins : Insertion),
      ins ∈ inss →
      (∃ anti ∈ ins.anti_patterns,
        antiOverlap (pyLower ins.anchor_text) anti = true) →
      ∃ e ∈ (antiPass inss).2, e.anchor = ins.anchor_text) ∧
    (∀ (inss : List Insertion) (ins : Insertion),
      ins ∈ (antiPass inss).1 →
      ∀ anti ∈ ins.anti_patterns,
        antiOverlap (pyLower ins.anchor_text) anti = false) ∧
    (∀ (blocks : List Block) (inss : List Insertion)
        (outcome : ValidateOutcome) (ins : Insertion),
      ins ∈ (apply_link_insertions blocks inss outcome).validatorInput →
      ∀ anti ∈ ins.anti_patterns,
        antiOverlap (pyLower ins.anchor_text) anti = false) ∧
    antiOverlap (pyLower (cs "grip on the club")) (cs "grip technique") =
      false := by
  refine ⟨antiPass_rejects_overlap, antiPass_keep_no_overlap, ?_, by decide⟩
  intro blocks inss outcome ins hmem
  rw [pipeline_validatorInput_eq] at hmem
  exact antiPass_keep_no_overlap inss ins
    (qualityPass_keep_subset _ ins (List.mem_of_mem_filter hmem))

theorem C9_anti_prefilter_amended_witness :
    ((⟨cs "grip pressure basics", cs "/u", cs "T",
        [cs "grip pressure"], none⟩ : Insertion) ∈
      ([⟨cs "grip pressure basics", cs "/u", cs "T",
         [cs "grip pressure"], none⟩] : List Insertion) ∧
     (∃ anti ∈ (⟨cs "grip pressure basics", cs "/u", cs "T",
         [cs "grip pressure"], none⟩ : Insertion).anti_patterns,
       antiOverlap (pyLower (cs "grip pressure basics")) anti = true) ∧
     ∃ e ∈ (antiPass [⟨cs "grip pressure basics", cs "/u", cs "T",
         [cs "grip pressure"], none⟩]).2,
       e.anchor = cs "grip pressure basics") :=
  ⟨by decide, ⟨cs "grip pressure", by decide, by decide⟩,
   C9_anti_prefilter_amended.1
     [⟨cs "grip pressure basics", cs "/u", cs "T",
       [cs "grip pressure"], none⟩]
     ⟨cs "grip pressure basics", cs "/u", cs "T",
       [cs "grip pressure"], none⟩
     (by decide) ⟨cs "grip pressure", by decide, by decide⟩⟩

/-- C9 (counterexample): the insertion with anchor "grip on the club" and
anti-pattern "grip technique" is NOT rejected by the prefilter (neither
string contains the other), and in a full Applier run it reaches the
judgment-service stage: the anti-rejection list is empty and the insertion
is submitted to the Context Validator. -/
theorem C9_counterexample_grip_not_rejected :
    antiPass [⟨cs "grip on the club", cs "/blog/grip-technique",
        cs "How to Grip a Golf Club", [cs "grip technique"], none⟩] =
      ([⟨cs "grip on the club", cs "/blog/grip-technique",
         cs "How to Grip a Golf Club", [cs "grip technique"], none⟩], []) ∧
    (apply_link_insertions
      [⟨none, BlockData.paragraph (cs "keep your grip on the club relaxed")⟩]
      [⟨cs "grip on the club", cs "/blog/grip-technique",
        cs "How to Grip a Golf Club", [cs "grip technique"], none⟩]
      ValidateOutcome.failure).antiRejected = [] ∧
    (apply_link_insertions
      [⟨none, BlockData.paragraph (cs "keep your grip on the club relaxed")⟩]
      [⟨cs "grip on the club", cs "/blog/grip-technique",
        cs "How to Grip a Golf Club", [cs "grip technique"], none⟩]
      ValidateOutcome.failure).validatorInput =
      [⟨cs "grip on the club", cs "/blog/grip-technique",
        cs "How to Grip a Golf Club", [cs "grip technique"], none⟩] := by
  exact ⟨by decide, by decide, by decide⟩

theorem find_none_of_noUnlinkedOcc {t a : List Char} (u : List Char)
    (h : noUnlinkedOcc a t = true) :
    find_and_replace_case_insensitive t a u = (t, none) := by
  rw [find_and_replace_case_insensitive]
  by_cases hw : containsSub (pyLower t) (pyLower ('>' :: (a ++ cs "</a>")))
  · rw [if_pos hw]
  · rw [if_neg hw]
    rw [noUnlinkedOcc, Bool.or_eq_true] at h
    rcases h with h | h
    · exact absurd h hw
    · rw [Bool.not_eq_eq_eq_not, Bool.not_true] at h
      rw [findSub_eq_none_of_not_contains h]

theorem replaceInItems_none_of {items : List (List Char)} {a : List Char}
    (u : List Char)
    (h : ∀ x ∈ items, noUnlinkedOcc a x = true) :
    replaceInItems items a u = (items, none) := by
  induction items with
  | nil => rfl
  | cons it rest ih =>
    rw [replaceInItems,
      find_none_of_noUnlinkedOcc u (h it (by simp)),
      ih fun x hx => h x (List.mem_cons_of_mem _ hx)]

theorem tryApplyBlock_none_of {b : Block} {a : List Char} (u : List Char)
    (h : ∀ t ∈ blockTexts b, noUnlinkedOcc a t = true) :
    tryApplyBlock b a u = (b, none) := by
  obtain ⟨bid0, bdata⟩ := b
  cases bdata with
  | paragraph t =>
    simp only [tryApplyBlock]
    rw [find_none_of_noUnlinkedOcc u (h t (by simp [blockTexts]))]
  | listB items =>
    simp only [tryApplyBlock]
    rw [replaceInItems_none_of u
      fun x hx => h x (by simpa [blockTexts] using hx)]
  | callout t =>
    simp only [tryApplyBlock]
    rw [find_none_of_noUnlinkedOcc u (h t (by simp [blockTexts]))]
  | accordion items => rfl
  | button url2 text2 nt => rfl
  | other => rfl

theorem proseTexts_cons (b : Block) (rest : List Block) :
    proseTexts (b :: rest) = blockTexts b ++ proseTexts rest := by
  simp [proseTexts]

theorem applyInsertionBlocks_cons (b : Block) (rest : List Block)
    (a u : List Char) (bid : Option (List Char)) :
    applyInsertionBlocks (b :: rest) a u bid =
      if bidSkip bid b then
        (b :: (applyInsertionBlocks rest a u bid).1,
         (applyInsertionBlocks rest a u bid).2)
      else
        match tryApplyBlock b a u with
        | (b', some ap) => (b' :: rest, some ap)
        | _ =>
          (b :: (applyInsertionBlocks rest a u bid).1,
           (applyInsertionBlocks rest a u bid).2) := by
  rw [applyInsertionBlocks]

theorem applyInsertionBlocks_none_of {blocks : List Block} {a : List Char}
    (u : List Char) (bid : Option (List Char))
    (h : ∀ t ∈ proseTexts blocks, noUnlinkedOcc a t = true) :
    applyInsertionBlocks blocks a u bid = (blocks, none) := by
  induction blocks with
  | nil => rfl
  | cons b rest ih =>
    rw [proseTexts_cons] at h
    have hb : ∀ t ∈ blockTexts b, noUnlinkedOcc a t = true := fun t ht =>
      h t (List.mem_append_left _ ht)
    have hrest : ∀ t ∈ proseTexts rest, noUnlinkedOcc a t = true :=
      fun t ht => h t (List.mem_append_right _ ht)
    rw [applyInsertionBlocks_cons]
    by_cases hskip : bidSkip bid b
    · rw [if_pos hskip, ih hrest]
    · rw [if_neg hskip, tryApplyBlock_none_of u hb, ih hrest]

theorem applyInsertionsLoop_cons (blocks : List Block) (ins : Insertion)
    (rest : List Insertion) :
    applyInsertionsLoop blocks (ins :: rest) =
      if (pyStrip ins.anchor_text).isEmpty || (pyStrip ins.url).isEmpty then
        ⟨(applyInsertionsLoop blocks rest).blocks,
         (applyInsertionsLoop blocks rest).applied,
         ⟨pyStrip ins.anchor_text, FailReason.missingField⟩ ::
           (applyInsertionsLoop blocks rest).failed⟩
      else
        match applyInsertionBlocks blocks (pyStrip ins.anchor_text)
            (pyStrip ins.url) ins.block_id with
        | (blocks', some a) =>
          ⟨(applyInsertionsLoop blocks' rest).blocks,
           a :: (applyInsertionsLoop blocks' rest).applied,
           (applyInsertionsLoop blocks' rest).failed⟩
        | (blocks', none) =>
          ⟨(applyInsertionsLoop blocks' rest).blocks,
           (applyInsertionsLoop blocks' rest).applied,
           ⟨pyStrip ins.anchor_text, FailReason.notFound⟩ ::
             (applyInsertionsLoop blocks' rest).failed⟩ := by
  rw [applyInsertionsLoop]

theorem tryApplyBlock_some_id {b : Block} {a u : List Char}
    {ap : AppliedLink} (h : (tryApplyBlock b a u).2 = some ap) :
    ap.block_id = b.id := by
  obtain ⟨bid0, bdata⟩ := b
  cases bdata with
  | paragraph t =>
    simp only [tryApplyBlock] at h
    rcases hf : find_and_replace_case_insensitive t a u with ⟨t', r⟩
    rw [hf] at h
    cases r with
    | some m => cases h; rfl
    | none => simp at h
  | listB items =>
    simp only [tryApplyBlock] at h
    rcases hf : replaceInItems items a u with ⟨items', r⟩
    rw [hf] at h
    cases r with
    | some m => cases h; rfl
    | none => simp at h
  | callout t =>
    simp only [tryApplyBlock] at h
    rcases hf : find_and_replace_case_insensitive t a u with ⟨t', r⟩
    rw [hf] at h
    cases r with
    | some m => cases h; rfl
    | none => simp at h
  | accordion items => simp [tryApplyBlock] at h
  | button url2 text2 nt => simp [tryApplyBlock] at h
  | other => simp [tryApplyBlock] at h

theorem applyInsertionBlocks_frame (blocks : List Block) (a u : List Char)
    (bid : Option (List Char)) :
    ((applyInsertionBlocks blocks a u bid).2 = none →
      (applyInsertionBlocks blocks a u bid).1 = blocks) ∧
    (∀ ap, (applyInsertionBlocks blocks a u bid).2 = some ap →
      ∃ k, k < blocks.length ∧
        (applyInsertionBlocks blocks a u bid).1.length = blocks.length ∧
        (∀ j, j ≠ k →
          (applyInsertionBlocks blocks a u bid).1.getD j
              ⟨none, BlockData.other⟩ =
            blocks.getD j ⟨none, BlockData.other⟩) ∧
        ap.block_id = (blocks.getD k ⟨none, BlockData.other⟩).id) := by
  induction blocks with
  | nil =>
    constructor
    · intro _; rfl
    · intro ap h
      simp [applyInsertionBlocks] at h
  | cons b rest ih =>
    rw [applyInsertionBlocks_cons]
    by_cases hskip : bidSkip bid b
    · rw [if_pos hskip]
      constructor
      · intro hnone
        rw [ih.1 hnone]
      · intro ap hsome
        obtain ⟨k, hk1, hk2, hk3, hk4⟩ := ih.2 ap hsome
        refine ⟨k + 1, by simpa using hk1, by simpa using hk2, ?_, ?_⟩
        · intro j hj
          cases j with
          | zero => rfl
          | succ j2 => simpa using hk3 j2 (by omega)
        · simpa using hk4
    · rw [if_neg hskip]
      rcases htry : tryApplyBlock b a u with ⟨b', r⟩
      cases r with
      | some ap0 =>
        constructor
        · intro hnone; simp at hnone
        · intro ap hsome
          have hap : ap0 = ap := by simpa using hsome
          subst hap
          refine ⟨0, by simp, by simp, ?_, ?_⟩
          · intro j hj
            cases j with
            | zero => exact absurd rfl hj
            | succ j2 => rfl
          · have := tryApplyBlock_some_id (show
              (tryApplyBlock b a u).2 = some ap0 by rw [htry])
            simpa using this
      | none =>
        constructor
        · intro hnone
          rw [ih.1 hnone]
        · intro ap hsome
          obtain ⟨k, hk1, hk2, hk3, hk4⟩ := ih.2 ap hsome
          refine ⟨k + 1, by simpa using hk1, by simpa using hk2, ?_, ?_⟩
          · intro j hj
            cases j with
            | zero => rfl
            | succ j2 => simpa using hk3 j2 (by omega)
          · simpa using hk4

/-- C1: for a batch of insertions each of whose anchors has no
case-insensitive, not-already-linked occurrence (the source's notion: the
wrapped form already appears, or the anchor does not occur at all) in any
prose-bearing block, the apply loop reports every insertion under failed
with the not-found reason and leaves the content byte-identical; and in
general no block other than the one containing a successful match is ever
mutated (a failed insertion leaves all blocks unchanged, a successful one
changes exactly one block, the one whose id it reports). -/
theorem C1_not_found_reported_and_frame :
    (∀ (blocks : List Block) (inss : List Insertion),
      (∀ ins ∈ inss,
        pyStrip ins.anchor_text ≠ [] ∧ pyStrip ins.url ≠ [] ∧
        ∀ t ∈ proseTexts blocks,
          noUnlinkedOcc (pyStrip ins.anchor_text) t = true) →
      applyInsertionsLoop blocks inss =
        ⟨blocks, [],
         inss.map fun i => ⟨pyStrip i.anchor_text, FailReason.notFound⟩⟩) ∧
    (∀ (blocks : List Block) (a u : List Char) (bid : Option (List Char)),
      ((applyInsertionBlocks blocks a u bid).2 = none →
        (applyInsertionBlocks blocks a u bid).1 = blocks) ∧
      (∀ ap, (applyInsertionBlocks blocks a u bid).2 = some ap →
        ∃ k, k < blocks.length ∧
          (applyInsertionBlocks blocks a u bid).1.length = blocks.length ∧
          (∀ j, j ≠ k →
            (applyInsertionBlocks blocks a u bid).1.getD j
                ⟨none, BlockData.other⟩ =
              blocks.getD j ⟨none, BlockData.other⟩) ∧
          ap.block_id = (blocks.getD k ⟨none, BlockData.other⟩).id)) := by
  refine ⟨?_, applyInsertionBlocks_frame⟩
  intro blocks inss h
  induction inss with
  | nil => rfl
  | cons ins rest ih =>
    obtain ⟨h1, h2, h3⟩ := h ins (by simp)
    have hrest := ih fun i hi => h i (List.mem_cons_of_mem _ hi)
    rw [applyInsertionsLoop_cons,
      if_neg (by simp [List.isEmpty_iff, h1, h2]),
      applyInsertionBlocks_none_of (pyStrip ins.url) ins.block_id h3]
    simp only [hrest, List.map_cons]

theorem C1_not_found_reported_and_frame_witness :
    ((∀ ins ∈ ([⟨cs "golf swing", cs "/x", [], [], none⟩] :
        List Insertion),
      pyStrip ins.anchor_text ≠ [] ∧ pyStrip ins.url ≠ [] ∧
      ∀ t ∈ proseTexts [⟨some (cs "b1"),
          BlockData.paragraph (cs "hello world")⟩],
        noUnlinkedOcc (pyStrip ins.anchor_text) t = true) ∧
     applyInsertionsLoop
        [⟨some (cs "b1"), BlockData.paragraph (cs "hello world")⟩]
        [⟨cs "golf swing", cs "/x", [], [], none⟩] =
      ⟨[⟨some (cs "b1"), BlockData.paragraph (cs "hello world")⟩], [],
       [⟨cs "golf swing", FailReason.notFound⟩]⟩) :=
  ⟨by decide,
   C1_not_found_reported_and_frame.1 _ _ (by decide)⟩

theorem pyLower_cons (c : Char) (x : List Char) :
    pyLower (c :: x) = c.toLower :: pyLower x := rfl

theorem findSub_le_length {h n : List Char} {p : Nat}
    (hf : findSub h n = some p) : p ≤ h.length := by
  induction h generalizing p with
  | nil =>
    rw [findSub] at hf
    by_cases hn : n.isEmpty
    · rw [if_pos hn] at hf
      cases hf
      exact Nat.le_refl 0
    · rw [if_neg hn] at hf
      cases hf
  | cons c rest ih =>
    rw [findSub] at hf
    by_cases hm : headMatches n (c :: rest) = true
    · rw [if_pos hm] at hf
      cases hf
      simp
    · rw [if_neg hm] at hf
      cases hfr : findSub rest n with
      | none => rw [hfr] at hf; cases hf
      | some q =>
        rw [hfr] at hf
        have hq : q + 1 = p := by simpa using hf
        subst hq
        have := ih hfr
        simpa using Nat.succ_le_succ this

theorem occurrence_bound {t a : List Char} {p : Nat}
    (hf : findSub (pyLower t) (pyLower a) = some p) :
    p + a.length ≤ t.length := by
  have h1 := (findSub_some_spec hf).1
  have h2 := headMatches_length h1
  have h3 := findSub_le_length hf
  rw [List.length_drop, pyLower_length, pyLower_length] at h2
  rw [pyLower_length] at h3
  omega

theorem matched_casing {t a : List Char} {p : Nat}
    (hf : findSub (pyLower t) (pyLower a) = some p) :
    pyLower ((t.drop p).take a.length) = pyLower a := by
  have h1 := (findSub_some_spec hf).1
  rw [headMatches_iff_take] at h1
  calc pyLower ((t.drop p).take a.length)
      = ((pyLower t).drop p).take a.length := by
        rw [pyLower_take, pyLower_drop]
    _ = ((pyLower t).drop p).take (pyLower a).length := by
        rw [pyLower_length]
    _ = pyLower a := h1

theorem containsSub_append_of_headMatches (pre rest needle : List Char)
    (h : headMatches needle rest = true) :
    containsSub (pre ++ rest) needle = true := by
  induction pre with
  | nil =>
    cases rest with
    | nil =>
      cases needle with
      | nil => rfl
      | cons a as => simp [headMatches] at h
    | cons c r =>
      rw [List.nil_append, containsSub, h]
      rfl
  | cons c pre2 ih =>
    rw [List.cons_append, containsSub, ih]
    simp

theorem needle_lower (a : List Char) :
    pyLower ('>' :: (a ++ cs "</a>")) = '>' :: (pyLower a ++ cs "</a>") := by
  rw [pyLower_cons, pyLower_append,
    show Char.toLower '>' = '>' from by decide,
    show pyLower (cs "</a>") = cs "</a>" from by decide]

theorem pyLower_linkHtml (u m : List Char) :
    pyLower (linkHtml u m) =
      cs "<a href=\"" ++
        (pyLower u ++ (cs "\">" ++ (pyLower m ++ cs "</a>"))) := by
  rw [linkHtml, pyLower_append, pyLower_append, pyLower_append,
    pyLower_append,
    show pyLower (cs "<a href=\"") = cs "<a href=\"" from by decide,
    show pyLower (cs "\">") = cs "\">" from by decide,
    show pyLower (cs "</a>") = cs "</a>" from by decide]
  simp [List.append_assoc]

theorem containsSub_wrapped_splice (pre post u m a : List Char)
    (hm : pyLower m = pyLower a) :
    containsSub (pyLower (pre ++ (linkHtml u m ++ post)))
      (pyLower ('>' :: (a ++ cs "</a>"))) = true := by
  rw [needle_lower, pyLower_append, pyLower_append, pyLower_linkHtml]
  have hQ : (cs "\">" : List Char) = '\"' :: ['>'] := by decide
  have hassemble :
      pyLower pre ++
        (cs "<a href=\"" ++
          (pyLower u ++ (cs "\">" ++ (pyLower m ++ cs "</a>"))) ++
         pyLower post) =
      (pyLower pre ++
        (cs "<a href=\"" ++ (pyLower u ++ ['\"']))) ++
        ('>' :: (pyLower m ++ (cs "</a>" ++ pyLower post))) := by
    simp [hQ, List.append_assoc]
  rw [hassemble]
  apply containsSub_append_of_headMatches
  have hR : '>' :: (pyLower m ++ (cs "</a>" ++ pyLower post)) =
      ('>' :: (pyLower a ++ cs "</a>")) ++ pyLower post := by
    rw [← hm]
    simp [List.append_assoc]
  rw [hR]
  exact headMatches_self_append _ _

theorem find_eq_splice {t a u : List Char} {p : Nat}
    (hwr : containsSub (pyLower t)
      (pyLower ('>' :: (a ++ cs "</a>"))) = false)
    (hf : findSub (pyLower t) (pyLower a) = some p) :
    find_and_replace_case_insensitive t a u =
      (t.take p ++ linkHtml u ((t.drop p).take a.length) ++
        t.drop (p + a.length),
       some ((t.drop p).take a.length)) := by
  rw [find_and_replace_case_insensitive, if_neg (by simp [hwr]), hf]

theorem find_retry_none (pre post a u m : List Char)
    (hm : pyLower m = pyLower a) :
    find_and_replace_case_insensitive (pre ++ (linkHtml u m ++ post)) a u =
      (pre ++ (linkHtml u m ++ post), none) := by
  rw [find_and_replace_case_insensitive,
    if_pos (containsSub_wrapped_splice pre post u m a hm)]

theorem noUnlinkedOcc_of_not_contains {a x : List Char}
    (h : containsSub (pyLower x) (pyLower a) = false) :
    noUnlinkedOcc a x = true := by
  rw [noUnlinkedOcc, h]
  simp

theorem proseTexts_append (xs ys : List Block) :
    proseTexts (xs ++ ys) = proseTexts xs ++ proseTexts ys := by
  simp [proseTexts]

theorem findSub_unique_pos {h n : List Char} {p : Nat}
    (hp1 : headMatches n (h.drop p) = true)
    (hp2 : ∀ q, q ≤ h.length → q ≠ p → headMatches n (h.drop q) = false) :
    findSub h n = some p := by
  obtain ⟨q, hq⟩ := findSub_isSome_of_headMatches hp1
  obtain ⟨h1, _⟩ := findSub_some_spec hq
  by_cases hqp : q = p
  · subst hqp
    exact hq
  · have := hp2 q (findSub_le_length hq) hqp
    rw [this] at h1
    cases h1

theorem applyInsertionBlocks_skip_prefix (a u : List Char) :
    ∀ (bs1 rest : List Block),
      (∀ x ∈ proseTexts bs1, noUnlinkedOcc a x = true) →
      applyInsertionBlocks (bs1 ++ rest) a u none =
        (bs1 ++ (applyInsertionBlocks rest a u none).1,
         (applyInsertionBlocks rest a u none).2) := by
  intro bs1
  induction bs1 with
  | nil => intro rest h; simp
  | cons b bs ih =>
    intro rest h
    have hb : ∀ x ∈ blockTexts b, noUnlinkedOcc a x = true := fun x hx =>
      h x (by rw [proseTexts_cons]; exact List.mem_append_left _ hx)
    have hbs : ∀ x ∈ proseTexts bs, noUnlinkedOcc a x = true := fun x hx =>
      h x (by rw [proseTexts_cons]; exact List.mem_append_right _ hx)
    rw [List.cons_append, applyInsertionBlocks_cons,
      if_neg (by simp [bidSkip]), tryApplyBlock_none_of u hb, ih rest hbs]
    simp

theorem applyInsertionBlocks_paragraph_found (bid0 : Option (List Char))
    (bs2 : List Block) {t a u t' m : List Char}
    (hfind : find_and_replace_case_insensitive t a u = (t', some m)) :
    applyInsertionBlocks (⟨bid0, BlockData.paragraph t⟩ :: bs2) a u none =
      (⟨bid0, BlockData.paragraph t'⟩ :: bs2, some ⟨m, u, bid0⟩) := by
  have htry : tryApplyBlock ⟨bid0, BlockData.paragraph t⟩ a u =
      (⟨bid0, BlockData.paragraph t'⟩, some ⟨m, u, bid0⟩) := by
    simp only [tryApplyBlock]
    rw [hfind]
  rw [applyInsertionBlocks_cons, if_neg (by simp [bidSkip]), htry]

/-- C2: when the anchor occurs exactly once in the content (at character
position `p` of the text of one paragraph block, with no occurrence in any
other prose text and no already-wrapped form), applying an insertion for
it wraps exactly that occurrence in a link while preserving its original
casing, and a second application of the same (anchor, url) pair is a no-op
on the content reported under failed; and at text level, when the anchor
occurs exactly at positions `i < j`, the replacement always wraps the
occurrence at `i`, and a retry on the resulting text changes nothing, so
the occurrence at `j` is never wrapped no matter how often the insertion
is retried. -/
theorem C2_unique_occurrence_wrap_and_first_match :
    (∀ (bs1 bs2 : List Block) (bid0 : Option (List Char))
        (t a u tt : List Char) (aps : List (List Char)) (p : Nat),
      pyStrip a = a → pyStrip u = u → a ≠ [] → u ≠ [] →
      (∀ x ∈ proseTexts bs1, containsSub (pyLower x) (pyLower a) = false) →
      (∀ x ∈ proseTexts bs2, containsSub (pyLower x) (pyLower a) = false) →
      headMatches (pyLower a) ((pyLower t).drop p) = true →
      (∀ q, q ≤ t.length → q ≠ p →
        headMatches (pyLower a) ((pyLower t).drop q) = false) →
      containsSub (pyLower t) (pyLower ('>' :: (a ++ cs "</a>"))) = false →
      pyLower ((t.drop p).take a.length) = pyLower a ∧
      applyInsertionsLoop
          (bs1 ++ ⟨bid0, BlockData.paragraph t⟩ :: bs2)
          [⟨a, u, tt, aps, none⟩] =
        ⟨bs1 ++ ⟨bid0, BlockData.paragraph
            (t.take p ++ linkHtml u ((t.drop p).take a.length) ++
              t.drop (p + a.length))⟩ :: bs2,
         [⟨(t.drop p).take a.length, u, bid0⟩], []⟩ ∧
      applyInsertionsLoop
          (bs1 ++ ⟨bid0, BlockData.paragraph
            (t.take p ++ linkHtml u ((t.drop p).take a.length) ++
              t.drop (p + a.length))⟩ :: bs2)
          [⟨a, u, tt, aps, none⟩] =
        ⟨bs1 ++ ⟨bid0, BlockData.paragraph
            (t.take p ++ linkHtml u ((t.drop p).take a.length) ++
              t.drop (p + a.length))⟩ :: bs2,
         [], [⟨a, FailReason.notFound⟩]⟩) ∧
    (∀ (t a u : List Char) (i j : Nat),
      i < j →
      headMatches (pyLower a) ((pyLower t).drop i) = true →
      headMatches (pyLower a) ((pyLower t).drop j) = true →
      (∀ q, q ≤ t.length → q ≠ i → q ≠ j →
        headMatches (pyLower a) ((pyLower t).drop q) = false) →
      containsSub (pyLower t) (pyLower ('>' :: (a ++ cs "</a>"))) = false →
      find_and_replace_case_insensitive t a u =
        (t.take i ++ linkHtml u ((t.drop i).take a.length) ++
          t.drop (i + a.length),
         some ((t.drop i).take a.length)) ∧
      (find_and_replace_case_insensitive
        (t.take i ++ linkHtml u ((t.drop i).take a.length) ++
          t.drop (i + a.length)) a u).2 = none) := by
  constructor
  · intro bs1 bs2 bid0 t a u tt aps p ha hu hane hune h1 h2 hp1 hp2 hwr
    have hf : findSub (pyLower t) (pyLower a) = some p :=
      findSub_unique_pos hp1 (by
        intro q hq hqp
        exact hp2 q (by rw [pyLower_length] at hq; exact hq) hqp)
    have hcase := matched_casing hf
    have hfind := find_eq_splice (u := u) hwr hf
    have hns1 : ∀ x ∈ proseTexts bs1, noUnlinkedOcc a x = true := fun x hx =>
      noUnlinkedOcc_of_not_contains (h1 x hx)
    have hns2 : ∀ x ∈ proseTexts bs2, noUnlinkedOcc a x = true := fun x hx =>
      noUnlinkedOcc_of_not_contains (h2 x hx)
    refine ⟨hcase, ?_, ?_⟩
    · rw [applyInsertionsLoop_cons]
      simp only [ha, hu]
      rw [if_neg (by simp [List.isEmpty_iff, hane, hune]),
        applyInsertionBlocks_skip_prefix a u bs1 _ hns1,
        applyInsertionBlocks_paragraph_found bid0 bs2 hfind]
      rfl
    · rw [applyInsertionsLoop_cons]
      simp only [ha, hu]
      rw [if_neg (by simp [List.isEmpty_iff, hane, hune]),
        applyInsertionBlocks_none_of u none ?hall]
      case hall =>
        intro x hx
        rw [proseTexts_append, proseTexts_cons] at hx
        rcases List.mem_append.mp hx with hx | hx
        · exact hns1 x hx
        · rcases List.mem_append.mp hx with hx | hx
          · have hxeq : x = t.take p ++ linkHtml u ((t.drop p).take a.length) ++
                t.drop (p + a.length) := by
              simpa [blockTexts] using hx
            subst hxeq
            rw [noUnlinkedOcc, List.append_assoc,
              containsSub_wrapped_splice _ _ _ _ _ hcase]
            rfl
          · exact hns2 x hx
      rfl
  · intro t a u i j hij hi hj honly hwr
    have hf : findSub (pyLower t) (pyLower a) = some i := by
      obtain ⟨q, hq⟩ := findSub_isSome_of_headMatches hi
      obtain ⟨hq1, hq2⟩ := findSub_some_spec hq
      have hqlen : q ≤ t.length := by
        have := findSub_le_length hq
        rw [pyLower_length] at this
        exact this
      by_cases hqi : q = i
      · subst hqi; exact hq
      · by_cases hqj : q = j
        · subst hqj
          have := hq2 i hij
          rw [hi] at this
          cases this
        · have := honly q hqlen hqi hqj
          rw [this] at hq1
          cases hq1
    have hcase := matched_casing hf
    have hfind := find_eq_splice (u := u) hwr hf
    refine ⟨hfind, ?_⟩
    rw [List.append_assoc, find_retry_none _ _ _ _ _ hcase]

theorem C2_unique_occurrence_wrap_and_first_match_witness :
    (pyStrip (cs "golf swing") = cs "golf swing" ∧
     pyStrip (cs "/blog/swing") = cs "/blog/swing" ∧
     cs "golf swing" ≠ [] ∧ cs "/blog/swing" ≠ [] ∧
     (∀ x ∈ proseTexts ([] : List Block),
       containsSub (pyLower x) (pyLower (cs "golf swing")) = false) ∧
     (∀ x ∈ proseTexts ([] : List Block),
       containsSub (pyLower x) (pyLower (cs "golf swing")) = false) ∧
     headMatches (pyLower (cs "golf swing"))
       ((pyLower (cs "learn Golf Swing today")).drop 6) = true ∧
     (∀ q, q ≤ (cs "learn Golf Swing today").length → q ≠ 6 →
       headMatches (pyLower (cs "golf swing"))
         ((pyLower (cs "learn Golf Swing today")).drop q) = false) ∧
     containsSub (pyLower (cs "learn Golf Swing today"))
       (pyLower ('>' :: (cs "golf swing" ++ cs "</a>"))) = false) ∧
    (pyLower (((cs "learn Golf Swing today").drop 6).take
        (cs "golf swing").length) = pyLower (cs "golf swing") ∧
     applyInsertionsLoop
        [⟨some (cs "b1"),
          BlockData.paragraph (cs "learn Golf Swing today")⟩]
        [⟨cs "golf swing", cs "/blog/swing", [], [], none⟩] =
      ⟨[⟨some (cs "b1"), BlockData.paragraph
          ((cs "learn Golf Swing today").take 6 ++
            linkHtml (cs "/blog/swing")
              (((cs "learn Golf Swing today").drop 6).take
                (cs "golf swing").length) ++
            (cs "learn Golf Swing today").drop
              (6 + (cs "golf swing").length))⟩],
       [⟨((cs "learn Golf Swing today").drop 6).take
           (cs "golf swing").length, cs "/blog/swing", some (cs "b1")⟩],
       []⟩ ∧
     applyInsertionsLoop
        [⟨some (cs "b1"), BlockData.paragraph
          ((cs "learn Golf Swing today").take 6 ++
            linkHtml (cs "/blog/swing")
              (((cs "learn Golf Swing today").drop 6).take
                (cs "golf swing").length) ++
            (cs "learn Golf Swing today").drop
              (6 + (cs "golf swing").length))⟩]
        [⟨cs "golf swing", cs "/blog/swing", [], [], none⟩] =
      ⟨[⟨some (cs "b1"), BlockData.paragraph
          ((cs "learn Golf Swing today").take 6 ++
            linkHtml (cs "/blog/swing")
              (((cs "learn Golf Swing today").drop 6).take
                (cs "golf swing").length) ++
            (cs "learn Golf Swing today").drop
              (6 + (cs "golf swing").length))⟩],
       [], [⟨cs "golf swing", FailReason.notFound⟩]⟩) :=
  ⟨⟨by decide, by decide, by decide, by decide, by decide, by decide,
    by decide, by decide, by decide⟩,
   C2_unique_occurrence_wrap_and_first_match.1 [] [] (some (cs "b1"))
     (cs "learn Golf Swing today") (cs "golf swing") (cs "/blog/swing")
     [] [] 6 (by decide) (by decide) (by decide) (by decide) (by decide)
     (by decide) (by decide) (by decide) (by decide)⟩

theorem textLinks_fields (pid t : List Char) :
    ∀ r ∈ textLinks pid t,
      r.post_id = pid ∧ r.link_type_internal = is_internal_url r.url := by
  intro r hr
  rw [textLinks] at hr
  obtain ⟨m, hm, rfl⟩ := List.mem_map.mp hr
  exact ⟨rfl, rfl⟩

theorem extract_fields (content : List Block) (pid : List Char) :
    ∀ r ∈ extract_links_from_content content pid,
      r.post_id = pid ∧ r.link_type_internal = is_internal_url r.url := by
  intro r hr
  rw [extract_links_from_content] at hr
  rw [List.mem_flatten] at hr
  obtain ⟨l, hl, hrl⟩ := hr
  obtain ⟨b, hb, rfl⟩ := List.mem_map.mp hl
  cases hbd : b.data with
  | paragraph t =>
    rw [blockLinks, hbd] at hrl
    exact textLinks_fields pid t r hrl
  | listB items =>
    rw [blockLinks, hbd] at hrl
    rw [List.mem_flatten] at hrl
    obtain ⟨l2, hl2, hrl2⟩ := hrl
    obtain ⟨it, hit, rfl⟩ := List.mem_map.mp hl2
    exact textLinks_fields pid it r hrl2
  | callout t =>
    rw [blockLinks, hbd] at hrl
    exact textLinks_fields pid t r hrl
  | accordion items =>
    rw [blockLinks, hbd] at hrl
    rw [List.mem_flatten] at hrl
    obtain ⟨l2, hl2, hrl2⟩ := hrl
    obtain ⟨it, hit, rfl⟩ := List.mem_map.mp hl2
    exact textLinks_fields pid it.2 r hrl2
  | button url2 text2 nt =>
    simp only [blockLinks, hbd] at hrl
    by_cases hu : url2.isEmpty
    · rw [if_pos hu] at hrl
      simp at hrl
    · rw [if_neg hu] at hrl
      rcases List.mem_singleton.mp hrl with rfl
      exact ⟨rfl, rfl⟩
  | other =>
    rw [blockLinks, hbd] at hrl
    simp at hrl

theorem resolve_fields (links : List LinkRecord)
    (slugOf slugToId : List Char → Option (List Char)) :
    ∀ r ∈ resolve_internal_link_post_ids links slugOf slugToId,
      ∃ r0 ∈ links, r.post_id = r0.post_id ∧ r.url = r0.url ∧
        r.link_type_internal = r0.link_type_internal := by
  intro r hr
  rw [resolve_internal_link_post_ids] at hr
  obtain ⟨r0, h0, rfl⟩ := List.mem_map.mp hr
  refine ⟨r0, h0, ?_⟩
  by_cases hint : r0.link_type_internal
  · rw [if_pos hint]
    cases slugOf r0.url with
    | some slug => exact ⟨rfl, rfl, rfl⟩
    | none => exact ⟨rfl, rfl, rfl⟩
  · rw [if_neg hint]
    exact ⟨rfl, rfl, rfl⟩

/-- C3 (amended): `save_post_links` performs the full delete-then-insert
of the article's ledger rows only when the current content yields at least
one extracted link: in that case the stored rows for the article equal
exactly the resolved extraction of the current content (and rows of other
articles are untouched).  When the content contains no links at all, the
function returns immediately without deleting anything, so stale rows for
the article survive. -/
theorem C3_ledger_sync_amended
    (ledger : List LinkRecord) (pid : List Char) (content : List Block)
    (slugOf slugToId : List Char → Option (List Char)) :
    (extract_links_from_content content pid = [] →
      save_post_links ledger pid content slugOf slugToId = (ledger, 0)) ∧
    (extract_links_from_content content pid ≠ [] →
      ((save_post_links ledger pid content slugOf slugToId).1.filter
          (fun r => r.post_id == pid) =
        resolve_internal_link_post_ids
          (extract_links_from_content content pid) slugOf slugToId ∧
       (save_post_links ledger pid content slugOf slugToId).1.filter
          (fun r => !(r.post_id == pid)) =
        ledger.filter (fun r => !(r.post_id == pid)) ∧
       (save_post_links ledger pid content slugOf slugToId).2 =
         (resolve_internal_link_post_ids
           (extract_links_from_content content pid) slugOf
             slugToId).length)) := by
  constructor
  · intro hnil
    rw [save_post_links, if_pos (by simp [hnil])]
  · intro hne
    have hlinks : ∀ r ∈ resolve_internal_link_post_ids
        (extract_links_from_content content pid) slugOf slugToId,
        r.post_id = pid := by
      intro r hr
      obtain ⟨r0, h0, hp, _, _⟩ :=
        resolve_fields _ slugOf slugToId r hr
      rw [hp]
      exact (extract_fields content pid r0 h0).1
    rw [save_post_links, if_neg (by simp [List.isEmpty_iff, hne])]
    refine ⟨?_, ?_, rfl⟩
    · rw [List.filter_append]
      have hzero : (ledger.filter fun r => !(r.post_id == pid)).filter
          (fun r => r.post_id == pid) = [] := by
        rw [List.filter_eq_nil_iff]
        intro r hr
        have := List.of_mem_filter hr
        simp only [Bool.not_eq_true'] at this
        simp [this]
      have hall : (resolve_internal_link_post_ids
          (extract_links_from_content content pid) slugOf
          slugToId).filter (fun r => r.post_id == pid) =
          resolve_internal_link_post_ids
            (extract_links_from_content content pid) slugOf slugToId := by
        rw [List.filter_eq_self]
        intro r hr
        simp [hlinks r hr]
      rw [hzero, hall, List.nil_append]
    · rw [List.filter_append]
      have hzero : (resolve_internal_link_post_ids
          (extract_links_from_content content pid) slugOf
          slugToId).filter (fun r => !(r.post_id == pid)) = [] := by
        rw [List.filter_eq_nil_iff]
        intro r hr
        simp [hlinks r hr]
      have hidem : (ledger.filter fun r => !(r.post_id == pid)).filter
          (fun r => !(r.post_id == pid)) =
          ledger.filter fun r => !(r.post_id == pid) := by
        rw [List.filter_eq_self]
        intro r hr
        exact List.of_mem_filter
          (p := fun x : LinkRecord => !(x.post_id == pid)) hr
      rw [hzero, hidem, List.append_nil]

theorem C3_ledger_sync_amended_witness :
    (extract_links_from_content
        [⟨none, BlockData.paragraph (cs "go <a href=\"/a/b\">X</a> now")⟩]
        (cs "p1") ≠ [] ∧
     (save_post_links
        [⟨cs "p2", cs "/other", some (cs "other"), true, none,
          false, false, none⟩]
        (cs "p1")
        [⟨none, BlockData.paragraph (cs "go <a href=\"/a/b\">X</a> now")⟩]
        (fun _ => none) (fun _ => none)).1.filter
          (fun r => r.post_id == cs "p1") =
      resolve_internal_link_post_ids
        (extract_links_from_content
          [⟨none, BlockData.paragraph (cs "go <a href=\"/a/b\">X</a> now")⟩]
          (cs "p1"))
        (fun _ => none) (fun _ => none)) :=
  ⟨by decide,
   ((C3_ledger_sync_amended
      [⟨cs "p2", cs "/other", some (cs "other"), true, none,
        false, false, none⟩]
      (cs "p1")
      [⟨none, BlockData.paragraph (cs "go <a href=\"/a/b\">X</a> now")⟩]
      (fun _ => none) (fun _ => none)).2 (by decide)).1⟩

/-- C3 (counterexample): on content with no anchor tags at all,
`save_post_links` performs no delete-then-insert: a stale ledger row for
the article survives, so the stored row set does not equal the (empty) set
of anchor tags present in the content. -/
theorem C3_counterexample_stale_rows_kept :
    extract_links_from_content
      [⟨none, BlockData.paragraph (cs "no links here")⟩] (cs "p1") = [] ∧
    save_post_links
      [⟨cs "p1", cs "/old-target", some (cs "old anchor"), true, none,
        false, false, none⟩]
      (cs "p1") [⟨none, BlockData.paragraph (cs "no links here")⟩]
      (fun _ => none) (fun _ => none) =
      ([⟨cs "p1", cs "/old-target", some (cs "old anchor"), true, none,
         false, false, none⟩], 0) ∧
    ([⟨cs "p1", cs "/old-target", some (cs "old anchor"), true, none,
       false, false, none⟩] : List LinkRecord).filter
        (fun r => r.post_id == cs "p1") ≠ [] := by
  exact ⟨by decide, by decide, by decide⟩

theorem headMatches_take_eq (n x : List Char) :
    headMatches n (x.take n.length) = headMatches n x := by
  cases hh : headMatches n x with
  | true =>
    rw [headMatches_iff_take] at hh ⊢
    rw [List.take_take, min_self]
    exact hh
  | false =>
    cases hh2 : headMatches n (x.take n.length) with
    | false => rfl
    | true =>
      rw [headMatches_iff_take, List.take_take, min_self] at hh2
      rw [← headMatches_iff_take] at hh2
      rw [hh2] at hh
      cases hh

theorem trySpecificHrefTail_occurrence {lurl s2 : List Char}
    {r : List Char × List Char}
    (h : trySpecificHrefTail lurl s2 = some r) :
    headMatches lurl ((pyLower s2).drop 6) = true := by
  rw [trySpecificHrefTail] at h
  by_cases h1 : headMatches (cs "href=") (pyLower (s2.take 5)) = true
  · rw [if_pos h1] at h
    cases hs : s2.drop 5 with
    | nil => rw [hs] at h; cases h
    | cons q1 s3 =>
      rw [hs] at h
      simp only [] at h
      by_cases h2 : isQuoteChar q1 = true
      · rw [if_pos h2] at h
        by_cases h3 : headMatches lurl (pyLower (s3.take lurl.length)) = true
        · have hs3 : s2.drop 6 = s3 := by
            have : s2.drop 6 = (s2.drop 5).drop 1 := by
              rw [List.drop_drop]
            rw [this, hs]
            rfl
          rw [pyLower_take, headMatches_take_eq] at h3
          rw [← pyLower_drop, hs3]
          simpa using h3
        · rw [if_neg h3] at h
          cases h
      · rw [if_neg h2] at h
        cases h
  · rw [if_neg h1] at h
    cases h

theorem trySpecificQ_some {lurl rest : List Char} {r : List Char × List Char} :
    ∀ n, trySpecificQ lurl rest n = some r →
      ∃ q, trySpecificHrefTail lurl (rest.drop q) = some r := by
  intro n
  induction n with
  | zero => intro h; cases h
  | succ m ih =>
    intro h
    rw [trySpecificQ] at h
    cases ht : trySpecificHrefTail lurl (rest.drop (m + 1)) with
    | some r2 =>
      rw [ht] at h
      cases h
      exact ⟨m + 1, ht⟩
    | none =>
      rw [ht] at h
      exact ih h

theorem trySpecificTagAt_occurrence {lurl s : List Char}
    {r : List Char × List Char}
    (h : trySpecificTagAt lurl s = some r) :
    ∃ k, headMatches lurl ((pyLower s).drop k) = true := by
  cases s with
  | nil => cases h
  | cons c0 s1 =>
    cases s1 with
    | nil => cases h
    | cons c1 rest =>
      rw [trySpecificTagAt] at h
      by_cases hc : (c0 == '<' && c1.toLower == 'a' &&
          decide (countLeading isPySpace rest ≥ 1)) = true
      · rw [if_pos hc] at h
        obtain ⟨q, hq⟩ := trySpecificQ_some _ h
        have hm := trySpecificHrefTail_occurrence hq
        refine ⟨q + 6 + 2, ?_⟩
        rw [← pyLower_drop] at hm ⊢
        have : (c0 :: c1 :: rest).drop (q + 6 + 2) = (rest.drop q).drop 6 := by
          rw [List.drop_drop]
          rfl
        rw [this]
        exact hm
      · rw [if_neg hc] at h
        cases h

theorem stripSpecificGo_none_of_not_contains (lurl : List Char) :
    ∀ (fuel : Nat) (t : List Char),
      containsSub (pyLower t) lurl = false →
      stripSpecificGo lurl fuel t = none := by
  intro fuel
  induction fuel with
  | zero => intro t _; cases t <;> rfl
  | succ m ih =>
    intro t h
    cases t with
    | nil => rfl
    | cons c rest =>
      rw [stripSpecificGo]
      have hnotag : trySpecificTagAt lurl (c :: rest) = none := by
        cases ht : trySpecificTagAt lurl (c :: rest) with
        | none => rfl
        | some r =>
          obtain ⟨k, hk⟩ := trySpecificTagAt_occurrence ht
          have : containsSub (pyLower (c :: rest)) lurl = true := by
            rw [containsSub_iff]
            exact ⟨k, hk⟩
          rw [this] at h
          cases h
      rw [hnotag]
      have hrest : containsSub (pyLower rest) lurl = false := by
        rw [pyLower_cons, containsSub] at h
        cases hcc : containsSub (pyLower rest) lurl with
        | false => rfl
        | true => rw [hcc] at h; simp at h
      rw [ih rest hrest]
      rfl

theorem strip_specific_none_of_not_contains {url t : List Char}
    (h : containsSub (pyLower t) (pyLower url) = false) :
    strip_specific_link url t = (t, false) := by
  rw [strip_specific_link,
    stripSpecificGo_none_of_not_contains (pyLower url) t.length t h]

theorem removeSingleItems_none {url : List Char} :
    ∀ items : List (List Char),
      (∀ x ∈ items, strip_specific_link url x = (x, false)) →
      removeSingleItems url items = (items, false) := by
  intro items
  induction items with
  | nil => intro _; rfl
  | cons it rest ih =>
    intro h
    rw [removeSingleItems, h it (by simp),
      ih fun x hx => h x (List.mem_cons_of_mem _ hx)]
    rfl

theorem removeSingleAcc_none {url : List Char} :
    ∀ items : List (List Char × List Char),
      (∀ x ∈ items, strip_specific_link url x.2 = (x.2, false)) →
      removeSingleAcc url items = (items, false) := by
  intro items
  induction items with
  | nil => intro _; rfl
  | cons qa rest ih =>
    intro h
    rw [removeSingleAcc, h qa (by simp),
      ih fun x hx => h x (List.mem_cons_of_mem _ hx)]
    rfl

theorem removeSingleFromBlock_none {url : List Char} {b : Block}
    (h : ∀ x ∈ singleTexts b,
      containsSub (pyLower x) (pyLower url) = false) :
    removeSingleFromBlock url b = (b, false) := by
  obtain ⟨bid0, bdata⟩ := b
  cases bdata with
  | paragraph t =>
    simp only [removeSingleFromBlock]
    rw [strip_specific_none_of_not_contains (h t (by simp [singleTexts]))]
    rfl
  | listB items =>
    simp only [removeSingleFromBlock]
    rw [removeSingleItems_none items fun x hx =>
      strip_specific_none_of_not_contains
        (h x (by simpa [singleTexts] using hx))]
    rfl
  | callout t =>
    simp only [removeSingleFromBlock]
    rw [strip_specific_none_of_not_contains (h t (by simp [singleTexts]))]
    rfl
  | accordion items =>
    simp only [removeSingleFromBlock]
    rw [removeSingleAcc_none items fun x hx =>
      strip_specific_none_of_not_contains
        (h x.2 (by
          simp only [singleTexts]
          exact List.mem_map_of_mem _ hx))]
    rfl
  | button url2 text2 nt => rfl
  | other => rfl

theorem removeSingleFromBlock_false {url : List Char} {b : Block}
    (h : (removeSingleFromBlock url b).2 = false) :
    (removeSingleFromBlock url b).1 = b := by
  obtain ⟨bid0, bdata⟩ := b
  cases bdata with
  | paragraph t =>
    simp only [removeSingleFromBlock] at h ⊢
    rw [if_neg (by rw [h]; simp)]
  | listB items =>
    simp only [removeSingleFromBlock] at h ⊢
    rw [if_neg (by rw [h]; simp)]
  | callout t =>
    simp only [removeSingleFromBlock] at h ⊢
    rw [if_neg (by rw [h]; simp)]
  | accordion items =>
    simp only [removeSingleFromBlock] at h ⊢
    rw [if_neg (by rw [h]; simp)]
  | button url2 text2 nt => rfl
  | other => rfl

theorem removeSingleWalk_cons (url : List Char) (b : Block)
    (rest : List Block) :
    removeSingleWalk url (b :: rest) =
      if (removeSingleFromBlock url b).2 then
        ((removeSingleFromBlock url b).1 :: rest, true)
      else
        (b :: (removeSingleWalk url rest).1,
         (removeSingleWalk url rest).2) := by
  rw [removeSingleWalk]

theorem removeSingleWalk_frame (url : List Char) :
    ∀ content : List Block,
      ((removeSingleWalk url content).2 = false →
        (removeSingleWalk url content).1 = content) ∧
      ((removeSingleWalk url content).2 = true →
        (removeSingleWalk url content).1.length = content.length ∧
        ∃ k, k < content.length ∧
          ∀ j, j ≠ k →
            (removeSingleWalk url content).1.getD j
                ⟨none, BlockData.other⟩ =
              content.getD j ⟨none, BlockData.other⟩) ∧
      (∀ j, (∀ x ∈ singleTexts (content.getD j ⟨none, BlockData.other⟩),
          containsSub (pyLower x) (pyLower url) = false) →
        (removeSingleWalk url content).1.getD j ⟨none, BlockData.other⟩ =
          content.getD j ⟨none, BlockData.other⟩) := by
  intro content
  induction content with
  | nil =>
    refine ⟨fun _ => rfl, ?_, fun j _ => rfl⟩
    intro h
    simp [removeSingleWalk] at h
  | cons b rest ih =>
    rw [removeSingleWalk_cons]
    by_cases hb : (removeSingleFromBlock url b).2 = true
    · rw [if_pos hb]
      refine ⟨fun h => by simp at h, fun _ => ?_, ?_⟩
      · refine ⟨by simp, 0, by simp, ?_⟩
        intro j hj
        cases j with
        | zero => exact absurd rfl hj
        | succ j2 => rfl
      · intro j hj
        cases j with
        | zero =>
          have hnone : removeSingleFromBlock url b = (b, false) :=
            removeSingleFromBlock_none (by simpa using hj)
          rw [hnone] at hb
          cases hb
        | succ j2 => rfl
    · have hbf : (removeSingleFromBlock url b).2 = false := bool_eq_false hb
      rw [if_neg hb]
      refine ⟨?_, ?_, ?_⟩
      · intro h
        rw [ih.1 (by simpa using h)]
      · intro h
        obtain ⟨hl, k, hk, hgd⟩ := ih.2.1 (by simpa using h)
        refine ⟨by simpa using hl, k + 1, by simpa using hk, ?_⟩
        intro j hj
        cases j with
        | zero => rfl
        | succ j2 => simpa using hgd j2 (by omega)
      · intro j hj
        cases j with
        | zero => rfl
        | succ j2 => simpa using ih.2.2 j2 (by simpa using hj)

theorem stripSpecificGo_some_decomp (lurl : List Char) :
    ∀ (fuel : Nat) (t t' : List Char),
      stripSpecificGo lurl fuel t = some t' →
      ∃ pre seg inner rem, t = pre ++ seg ∧ t' = pre ++ (inner ++ rem) ∧
        trySpecificTagAt lurl seg = some (inner, rem) := by
  intro fuel
  induction fuel with
  | zero => intro t t' h; cases t <;> exact Option.noConfusion h
  | succ m ih =>
    intro t t' h
    cases t with
    | nil => cases h
    | cons c rest =>
      rw [stripSpecificGo] at h
      cases ht : trySpecificTagAt lurl (c :: rest) with
      | some r =>
        rw [ht] at h
        cases h
        exact ⟨[], c :: rest, r.1, r.2, rfl, rfl, by rw [ht]⟩
      | none =>
        rw [ht] at h
        cases hgo : stripSpecificGo lurl m rest with
        | none => rw [hgo] at h; cases h
        | some t0 =>
          rw [hgo] at h
          have ht0 : c :: t0 = t' := by simpa using h
          obtain ⟨pre, seg, inner, rem, h1, h2, h3⟩ := ih rest t0 hgo
          exact ⟨c :: pre, seg, inner, rem, by rw [h1, List.cons_append],
            by rw [← ht0, h2, List.cons_append], h3⟩

/-- C5 (amended): `remove_single_link_by_id` deletes from the ledger
exactly the rows carrying the targeted identifier, and removes from the
content only the first tag instance (in block order) whose href equals the
recorded URL of that row — the recorded anchor text is never consulted.
At most one block changes; every block whose texts do not contain the
recorded URL (in particular every link with a different URL, even with the
same anchor text) is untouched; and within the changed text exactly one
matched tag span is replaced by its inner text.  When several links share
the recorded URL, the earliest instance is removed, which may differ from
the recorded one. -/
theorem C5_remove_single_amended :
    (∀ (db : List LedgerRow) (getContent : List Char → Option (List Block))
        (link_id : List Char) (row : LedgerRow) (content : List Block),
      findRow link_id db = some row →
      getContent row.entry.post_id = some content →
      content ≠ [] →
      remove_single_link_by_id db getContent link_id =
        RemoveSingleResult.ok (removeSingleWalk row.entry.url content).1
          (db.filter fun r => !(r.rid == link_id))
          (removeSingleWalk row.entry.url content).2 ∧
      ((removeSingleWalk row.entry.url content).2 = false →
        (removeSingleWalk row.entry.url content).1 = content) ∧
      ((removeSingleWalk row.entry.url content).2 = true →
        (removeSingleWalk row.entry.url content).1.length =
          content.length ∧
        ∃ k, k < content.length ∧
          ∀ j, j ≠ k →
            (removeSingleWalk row.entry.url content).1.getD j
                ⟨none, BlockData.other⟩ =
              content.getD j ⟨none, BlockData.other⟩) ∧
      (∀ j, (∀ x ∈ singleTexts (content.getD j ⟨none, BlockData.other⟩),
          containsSub (pyLower x) (pyLower row.entry.url) = false) →
        (removeSingleWalk row.entry.url content).1.getD j
            ⟨none, BlockData.other⟩ =
          content.getD j ⟨none, BlockData.other⟩)) ∧
    (∀ (url t t' : List Char),
      strip_specific_link url t = (t', true) →
      ∃ pre seg inner rem, t = pre ++ seg ∧ t' = pre ++ (inner ++ rem) ∧
        trySpecificTagAt (pyLower url) seg = some (inner, rem)) := by
  constructor
  · intro db getContent link_id row content hrow hcontent hne
    have hframe := removeSingleWalk_frame row.entry.url content
    refine ⟨?_, hframe.1, hframe.2.1, hframe.2.2⟩
    rw [remove_single_link_by_id, hrow]
    simp only []
    rw [hcontent]
    simp only []
    rw [if_neg (by simp [List.isEmpty_iff, hne])]
  · intro url t t' h
    rw [strip_specific_link] at h
    cases hgo : stripSpecificGo (pyLower url) t.length t with
    | none => rw [hgo] at h; cases h
    | some t0 =>
      rw [hgo] at h
      have ht0 : t0 = t' := by
        have := congrArg Prod.fst h
        simpa using this
      subst ht0
      exact stripSpecificGo_some_decomp _ _ _ _ hgo

theorem C5_remove_single_amended_witness :
    (findRow (cs "r1")
        [⟨cs "r1", ⟨cs "p1", cs "/t", some (cs "Alpha"), true, none,
          false, false, none⟩⟩] =
      some ⟨cs "r1", ⟨cs "p1", cs "/t", some (cs "Alpha"), true, none,
        false, false, none⟩⟩ ∧
     ([⟨none, BlockData.paragraph
        (cs "see <a href=\"/t\">Alpha</a> here")⟩] : List Block) ≠ [] ∧
     remove_single_link_by_id
        [⟨cs "r1", ⟨cs "p1", cs "/t", some (cs "Alpha"), true, none,
          false, false, none⟩⟩]
        (fun p => if p == cs "p1" then
          some [⟨none, BlockData.paragraph
            (cs "see <a href=\"/t\">Alpha</a> here")⟩]
          else none)
        (cs "r1") =
      RemoveSingleResult.ok
        (removeSingleWalk (cs "/t")
          [⟨none, BlockData.paragraph
            (cs "see <a href=\"/t\">Alpha</a> here")⟩]).1
        (([⟨cs "r1", ⟨cs "p1", cs "/t", some (cs "Alpha"), true, none,
            false, false, none⟩⟩] : List LedgerRow).filter
          fun r => !(r.rid == cs "r1"))
        (removeSingleWalk (cs "/t")
          [⟨none, BlockData.paragraph
            (cs "see <a href=\"/t\">Alpha</a> here")⟩]).2) :=
  ⟨by decide, by decide,
   (C5_remove_single_amended.1
      [⟨cs "r1", ⟨cs "p1", cs "/t", some (cs "Alpha"), true, none,
        false, false, none⟩⟩]
      (fun p => if p == cs "p1" then
        some [⟨none, BlockData.paragraph
          (cs "see <a href=\"/t\">Alpha</a> here")⟩]
        else none)
      (cs "r1")
      ⟨cs "r1", ⟨cs "p1", cs "/t", some (cs "Alpha"), true, none,
        false, false, none⟩⟩
      [⟨none, BlockData.paragraph
        (cs "see <a href=\"/t\">Alpha</a> here")⟩]
      (by decide) (by decide) (by decide)).1⟩

/-- C5 (counterexample): with two links sharing the URL `/t` but different
anchors, removing the ledger row recorded for anchor "Beta" strips the
tag around "Alpha" (the first instance with that URL) and leaves the
"Beta" tag linked — not the behaviour the claim states (only the targeted
(url, anchor) instance removed, other links with the same URL untouched). -/
theorem C5_counterexample_first_url_match_removed :
    remove_single_link_by_id
      [⟨cs "r1", ⟨cs "p1", cs "/t", some (cs "Alpha"), true, none,
        false, false, none⟩⟩,
       ⟨cs "r2", ⟨cs "p1", cs "/t", some (cs "Beta"), true, none,
        false, false, none⟩⟩]
      (fun p => if p == cs "p1" then
        some [⟨none, BlockData.paragraph
          (cs "see <a href=\"/t\">Alpha</a> and <a href=\"/t\">Beta</a>")⟩]
        else none)
      (cs "r2") =
      RemoveSingleResult.ok
        [⟨none, BlockData.paragraph
          (cs "see Alpha and <a href=\"/t\">Beta</a>")⟩]
        [⟨cs "r1", ⟨cs "p1", cs "/t", some (cs "Alpha"), true, none,
          false, false, none⟩⟩]
        true ∧
    [⟨none, BlockData.paragraph
      (cs "see Alpha and <a href=\"/t\">Beta</a>")⟩] ≠
      ([⟨none, BlockData.paragraph
        (cs "see <a href=\"/t\">Alpha</a> and Beta")⟩] : List Block) := by
  exact ⟨by decide, by decide⟩

theorem toLower_eq_lt {c : Char} (h : Char.toLower c = '<') : c = '<' := by
  have hdef : Char.toLower c =
      if c.toNat ≥ 65 ∧ c.toNat ≤ 90 then Char.ofNat (c.toNat + 32) else c :=
    rfl
  rw [hdef] at h
  by_cases hc : c.toNat ≥ 65 ∧ c.toNat ≤ 90
  · rw [if_pos hc] at h
    have hv : (Char.toNat c + 32).isValidChar := Or.inl (by omega)
    have ht := toNat_ofNat_of_valid hv
    have h2 : (Char.ofNat (Char.toNat c + 32)).toNat = ('<' : Char).toNat := by
      rw [h]
    rw [ht] at h2
    have h60 : ('<' : Char).toNat = 60 := rfl
    rw [h60] at h2
    omega
  · rw [if_neg hc] at h
    exact h

theorem mem_pyLower_lt {x : List Char} (h : '<' ∈ pyLower x) : '<' ∈ x := by
  rw [pyLower] at h
  obtain ⟨c, hc, hceq⟩ := List.mem_map.mp h
  rwa [toLower_eq_lt hceq] at hc

theorem headMatches_mem : ∀ (n s : List Char), headMatches n s = true →
    ∀ c ∈ n, c ∈ s := by
  intro n
  induction n with
  | nil => intro s _ c hc; cases hc
  | cons a as ih =>
    intro s h c hc
    cases s with
    | nil => cases h
    | cons b bs =>
      rw [headMatches, Bool.and_eq_true, beq_iff_eq] at h
      rcases List.mem_cons.mp hc with rfl | hc2
      · rw [h.1]; exact List.mem_cons_self _ _
      · exact List.mem_cons_of_mem _ (ih bs h.2 c hc2)

theorem containsSub_false_of_mem {c : Char} {h n : List Char}
    (hcn : c ∈ n) (hch : c ∉ h) : containsSub h n = false := by
  cases hc : containsSub h n with
  | false => rfl
  | true =>
    rw [containsSub_iff] at hc
    obtain ⟨q, hq⟩ := hc
    exact absurd (List.drop_subset _ _ (headMatches_mem n _ hq c hcn)) hch

theorem wrapped_needle_false {t : List Char} (a : List Char) (h : '<' ∉ t) :
    containsSub (pyLower t) (pyLower ('>' :: (a ++ cs "</a>"))) = false := by
  apply containsSub_false_of_mem (c := '<')
  · rw [pyLower]
    apply List.mem_map.mpr
    refine ⟨'<', ?_, rfl⟩
    exact List.mem_cons_of_mem _ (List.mem_append_right _ (by decide))
  · intro hmem
    exact h (mem_pyLower_lt hmem)

theorem countLeading_append_stop (p : Char → Bool) :
    ∀ (xs : List Char) (y : Char) (rest : List Char),
      (∀ c ∈ xs, p c = true) → p y = false →
      countLeading p (xs ++ y :: rest) = xs.length := by
  intro xs
  induction xs with
  | nil =>
    intro y rest _ hy
    simp [countLeading, List.takeWhile_cons, hy]
  | cons c xs2 ih =>
    intro y rest hall hy
    have hc : p c = true := hall c (by simp)
    have hrest := ih y rest (fun d hd => hall d (by simp [hd])) hy
    simp only [countLeading] at hrest ⊢
    simp only [List.cons_append, List.takeWhile_cons, hc, if_true,
      List.length_cons]
    omega

theorem tryInternalTagAt_not_lt {c : Char} (hc : ¬c = '<') :
    ∀ xs : List Char, tryInternalTagAt (c :: xs) = none := by
  intro xs
  cases xs with
  | nil => rfl
  | cons c1 r2 =>
    rw [tryInternalTagAt]
    rw [if_neg (by simp [hc])]

theorem stripInternalGo_cons_none {c : Char} {rest : List Char} (k : Nat)
    (h : tryInternalTagAt (c :: rest) = none) :
    stripInternalGo (k + 1) (c :: rest) =
      (c :: (stripInternalGo k rest).1, (stripInternalGo k rest).2) := by
  rw [stripInternalGo, h]

theorem stripInternalGo_cons_some {c : Char} {rest inner rem : List Char}
    (k : Nat) (h : tryInternalTagAt (c :: rest) = some (inner, rem)) :
    stripInternalGo (k + 1) (c :: rest) =
      (inner ++ (stripInternalGo k rem).1, (stripInternalGo k rem).2 + 1) := by
  rw [stripInternalGo, h]

theorem stripInternalGo_clean : ∀ (l : List Char), '<' ∉ l →
    ∀ f, stripInternalGo f l = (l, 0) := by
  intro l
  induction l with
  | nil => intro _ f; cases f <;> rfl
  | cons c rest ih =>
    intro h f
    cases f with
    | zero => rfl
    | succ k =>
      have hc : ¬c = '<' := by
        intro he
        subst he
        exact h (List.mem_cons_self _ _)
      rw [stripInternalGo_cons_none k (tryInternalTagAt_not_lt hc rest),
        ih (fun hm => h (List.mem_cons_of_mem _ hm)) k]

theorem stripInternalGo_pass : ∀ (pre : List Char), '<' ∉ pre →
    ∀ (rest : List Char) (f : Nat),
      stripInternalGo (pre.length + f) (pre ++ rest) =
        (pre ++ (stripInternalGo f rest).1, (stripInternalGo f rest).2) := by
  intro pre
  induction pre with
  | nil =>
    intro _ rest f
    rcases hgo : stripInternalGo f rest with ⟨t, n⟩
    simp [hgo]
  | cons c pre2 ih =>
    intro h rest f
    have hc : ¬c = '<' := by
      intro he
      subst he
      exact h (List.mem_cons_self _ _)
    have hlen : (c :: pre2).length + f = (pre2.length + f) + 1 := by
      simp only [List.length_cons]
      omega
    rw [hlen, List.cons_append,
      stripInternalGo_cons_none _ (tryInternalTagAt_not_lt hc _),
      ih (fun hm => h (List.mem_cons_of_mem _ hm)) rest f]
    simp

theorem linkHtml_shape (u' m post : List Char) :
    linkHtml ('/' :: u') m ++ post =
      '<' :: 'a' :: ' ' :: 'h' :: 'r' :: 'e' :: 'f' :: '=' :: '"' :: '/' ::
        (u' ++ ('"' :: '>' :: (m ++ ('<' :: '/' :: 'a' :: '>' :: post)))) := by
  have hA : (cs "<a href=\"" : List Char) =
      ['<', 'a', ' ', 'h', 'r', 'e', 'f', '=', '"'] := by decide
  have hB : (cs "\">" : List Char) = ['"', '>'] := by decide
  have hC : (cs "</a>" : List Char) = ['<', '/', 'a', '>'] := by decide
  rw [linkHtml, hA, hB, hC]
  simp [List.append_assoc]

theorem tryInternalTagAt_linkHtml (u' m post : List Char)
    (hq : ∀ c ∈ u', (c == '"') = false)
    (hm : ∀ c ∈ m, (c == '<') = false) :
    tryInternalTagAt (linkHtml ('/' :: u') m ++ post) = some (m, post) := by
  have hurl : countLeading (fun c => !(c == '"'))
      ('/' :: (u' ++ ('"' :: '>' ::
        (m ++ ('<' :: '/' :: 'a' :: '>' :: post))))) = u'.length + 1 := by
    have h0 := countLeading_append_stop (fun c => !(c == '"'))
      ('/' :: u') '"' ('>' :: (m ++ ('<' :: '/' :: 'a' :: '>' :: post)))
      (fun c hc => by
        rcases List.mem_cons.mp hc with rfl | hc2
        · rfl
        · simp [hq c hc2])
      rfl
    simpa using h0
  have hdropu : (u' ++ ('"' :: '>' ::
      (m ++ ('<' :: '/' :: 'a' :: '>' :: post)))).drop u'.length =
      '"' :: '>' :: (m ++ ('<' :: '/' :: 'a' :: '>' :: post)) :=
    List.drop_left _ _
  have hinner : countLeading (fun c => !(c == '<'))
      (m ++ ('<' :: '/' :: 'a' :: '>' :: post)) = m.length :=
    countLeading_append_stop _ m '<' _ (fun c hc => by simp [hm c hc]) rfl
  have hdropm : (m ++ ('<' :: '/' :: 'a' :: '>' :: post)).drop m.length =
      '<' :: '/' :: 'a' :: '>' :: post := List.drop_left _ _
  have htakem : (m ++ ('<' :: '/' :: 'a' :: '>' :: post)).take m.length = m :=
    List.take_left _ _
  have hws : countLeading isPySpace
      (' ' :: 'h' :: 'r' :: 'e' :: 'f' :: '=' :: '"' :: '/' ::
        (u' ++ ('"' :: '>' ::
          (m ++ ('<' :: '/' :: 'a' :: '>' :: post))))) = 1 := rfl
  have hgap : countLeading (fun c => !(c == '>'))
      ('>' :: (m ++ ('<' :: '/' :: 'a' :: '>' :: post))) = 0 := rfl
  rw [linkHtml_shape]
  simp +decide [tryInternalTagAt, hws, hurl, hdropu, hgap, hinner, hdropm,
    htakem]

theorem strip_internal_splice (pre post u' m : List Char)
    (hpre : '<' ∉ pre) (hpost : '<' ∉ post)
    (hm : ∀ c ∈ m, (c == '<') = false)
    (hq : ∀ c ∈ u', (c == '"') = false) :
    strip_internal_links (pre ++ linkHtml ('/' :: u') m ++ post) =
      (pre ++ (m ++ post), 1) := by
  have htag := tryInternalTagAt_linkHtml u' m post hq hm
  rw [strip_internal_links, List.append_assoc, List.length_append,
    stripInternalGo_pass pre hpre (linkHtml ('/' :: u') m ++ post)
      (linkHtml ('/' :: u') m ++ post).length]
  rw [linkHtml_shape] at htag ⊢
  simp only [List.length_cons]
  rw [stripInternalGo_cons_some _ htag,
    stripInternalGo_clean post hpost]

theorem removeInternalBlock_clean {b : Block}
    (h : ∀ x ∈ blockTexts b, '<' ∉ x) :
    removeInternalBlock b = (b, 0) := by
  have hstrip : ∀ tt : List Char, '<' ∉ tt →
      strip_internal_links tt = (tt, 0) := fun tt h2 => by
    rw [strip_internal_links, stripInternalGo_clean tt h2]
  obtain ⟨bid0, bdata⟩ := b
  cases bdata with
  | paragraph t =>
    simp only [removeInternalBlock]
    rw [hstrip t (h t (by simp [blockTexts]))]
    rfl
  | listB items =>
    simp only [removeInternalBlock]
    have hmap : items.map (fun it =>
        if (strip_internal_links it).2 > 0 then (strip_internal_links it).1
        else it) = items := by
      rw [show items.map (fun it =>
          if (strip_internal_links it).2 > 0 then (strip_internal_links it).1
          else it) = items.map id from
        List.map_congr_left fun it hit => by
          rw [hstrip it (h it (by simpa [blockTexts] using hit))]
          rfl]
      exact List.map_id items
    have htot : (items.map fun it => (strip_internal_links it).2).sum = 0 := by
      apply List.sum_eq_zero
      intro x hx
      obtain ⟨it, hit, rfl⟩ := List.mem_map.mp hx
      rw [hstrip it (h it (by simpa [blockTexts] using hit))]
    rw [hmap, htot]
  | callout t =>
    simp only [removeInternalBlock]
    rw [hstrip t (h t (by simp [blockTexts]))]
    rfl
  | accordion items => rfl
  | button url2 text2 nt => rfl
  | other => rfl

theorem removeInternalBlock_wrapped (bid0 : Option (List Char))
    (pre post u' m : List Char)
    (hpre : '<' ∉ pre) (hpost : '<' ∉ post)
    (hm : ∀ c ∈ m, (c == '<') = false)
    (hq : ∀ c ∈ u', (c == '"') = false) :
    removeInternalBlock
        ⟨bid0, BlockData.paragraph (pre ++ linkHtml ('/' :: u') m ++ post)⟩ =
      (⟨bid0, BlockData.paragraph (pre ++ (m ++ post))⟩, 1) := by
  simp only [removeInternalBlock]
  rw [strip_internal_splice pre post u' m hpre hpost hm hq]
  rfl

theorem remove_internal_round (bs1 bs2 : List Block)
    (bid0 : Option (List Char)) (pre post u' m : List Char)
    (pid : List Char) (L0 : List LinkRecord)
    (h1 : ∀ b ∈ bs1, ∀ x ∈ blockTexts b, '<' ∉ x)
    (h2 : ∀ b ∈ bs2, ∀ x ∈ blockTexts b, '<' ∉ x)
    (hpre : '<' ∉ pre) (hpost : '<' ∉ post)
    (hm : ∀ c ∈ m, (c == '<') = false)
    (hq : ∀ c ∈ u', (c == '"') = false) :
    remove_internal_links_from_post pid
        (bs1 ++ ⟨bid0, BlockData.paragraph
          (pre ++ linkHtml ('/' :: u') m ++ post)⟩ :: bs2) L0 =
      (bs1 ++ ⟨bid0, BlockData.paragraph (pre ++ (m ++ post))⟩ :: bs2,
       L0.filter (fun r => !(r.post_id == pid && r.link_type_internal)),
       1) := by
  have hres : (bs1 ++ ⟨bid0, BlockData.paragraph
      (pre ++ linkHtml ('/' :: u') m ++ post)⟩ :: bs2).map
        removeInternalBlock =
      bs1.map (fun b => (b, 0)) ++
        (⟨bid0, BlockData.paragraph (pre ++ (m ++ post))⟩, 1) ::
          bs2.map (fun b => (b, 0)) := by
    rw [List.map_append, List.map_cons,
      removeInternalBlock_wrapped bid0 pre post u' m hpre hpost hm hq]
    congr 1
    · exact List.map_congr_left fun b hb => removeInternalBlock_clean (h1 b hb)
    · congr 1
      exact List.map_congr_left fun b hb => removeInternalBlock_clean (h2 b hb)
  have htot : ((bs1.map (fun b => (b, (0 : Nat))) ++
      ((⟨bid0, BlockData.paragraph (pre ++ (m ++ post))⟩ : Block), (1 : Nat)) ::
        bs2.map (fun b => (b, 0))).map Prod.snd).sum = 1 := by
    rw [List.map_append, List.map_cons, List.sum_append, List.sum_cons]
    have z1 : ((bs1.map fun b => (b, (0 : Nat))).map Prod.snd).sum = 0 := by
      apply List.sum_eq_zero
      intro x hx
      obtain ⟨y, hy, rfl⟩ := List.mem_map.mp hx
      obtain ⟨b, hb, rfl⟩ := List.mem_map.mp hy
      rfl
    have z2 : ((bs2.map fun b => (b, (0 : Nat))).map Prod.snd).sum = 0 := by
      apply List.sum_eq_zero
      intro x hx
      obtain ⟨y, hy, rfl⟩ := List.mem_map.mp hx
      obtain ⟨b, hb, rfl⟩ := List.mem_map.mp hy
      rfl
    rw [z1, z2]
    rfl
  have hfst : (bs1.map (fun b => (b, (0 : Nat))) ++
      ((⟨bid0, BlockData.paragraph (pre ++ (m ++ post))⟩ : Block), (1 : Nat)) ::
        bs2.map (fun b => (b, 0))).map Prod.fst =
      bs1 ++ ⟨bid0, BlockData.paragraph (pre ++ (m ++ post))⟩ :: bs2 := by
    rw [List.map_append, List.map_cons, List.map_map, List.map_map]
    have hcomp : (Prod.fst ∘ fun b : Block => (b, (0 : Nat))) = id := rfl
    rw [hcomp, List.map_id, List.map_id]
  rw [remove_internal_links_from_post]
  rw [hres, htot, if_neg (by omega), hfst]

theorem tryTagAt_not_lt {c : Char} (hc : ¬c = '<') :
    ∀ xs : List Char, tryTagAt (c :: xs) = none := by
  intro xs
  cases xs with
  | nil => rfl
  | cons c1 r2 =>
    rw [tryTagAt]
    rw [if_neg (by simp [hc])]

theorem scanTags_cons_none {c : Char} {xs : List Char} (k : Nat)
    (h : tryTagAt (c :: xs) = none) :
    scanTags (k + 1) (c :: xs) = scanTags k xs := by
  rw [scanTags, h]

theorem scanTags_pass : ∀ (pre : List Char), '<' ∉ pre →
    ∀ (rest : List Char) (f : Nat),
      scanTags (pre.length + f) (pre ++ rest) = scanTags f rest := by
  intro pre
  induction pre with
  | nil => intro _ rest f; simp
  | cons c pre2 ih =>
    intro h rest f
    have hc : ¬c = '<' := by
      intro he
      subst he
      exact h (List.mem_cons_self _ _)
    have hlen : (c :: pre2).length + f = (pre2.length + f) + 1 := by
      simp only [List.length_cons]
      omega
    rw [hlen, List.cons_append,
      scanTags_cons_none _ (tryTagAt_not_lt hc _),
      ih (fun hm => h (List.mem_cons_of_mem _ hm)) rest f]

theorem scanTags_ne_nil {c : Char} {xs : List Char} (k : Nat)
    (h : tryTagAt (c :: xs) ≠ none) : scanTags (k + 1) (c :: xs) ≠ [] := by
  rw [scanTags]
  cases ht : tryTagAt (c :: xs) with
  | none => exact absurd ht h
  | some r =>
    rcases r with ⟨x, y, z, w⟩
    simp

theorem tryTagQ_none_all (rest : List Char) :
    ∀ n, tryTagQ rest n = none →
      ∀ q, 1 ≤ q → q ≤ n → tryHrefTail (rest.drop q) = none := by
  intro n
  induction n with
  | zero => intro _ q h1 h2; omega
  | succ nn ih =>
    intro h q h1 h2
    rw [tryTagQ] at h
    cases ht : tryHrefTail (rest.drop (nn + 1)) with
    | some r => rw [ht] at h; cases h
    | none =>
      rw [ht] at h
      by_cases hq : q = nn + 1
      · subst hq
        exact ht
      · exact ih h q h1 (by omega)

theorem tryHrefTail_linkTail (u' m post : List Char) (k : Nat)
    (hq : ∀ c ∈ u', isQuoteChar c = false)
    (hk : findSub (pyLower (m ++ ('<' :: '/' :: 'a' :: '>' :: post)))
      (cs "</a>") = some k) :
    tryHrefTail ('h' :: 'r' :: 'e' :: 'f' :: '=' :: '"' :: '/' ::
        (u' ++ ('"' :: '>' :: (m ++ ('<' :: '/' :: 'a' :: '>' :: post))))) =
      some ('/' :: u',
        (m ++ ('<' :: '/' :: 'a' :: '>' :: post)).take k,
        (m ++ ('<' :: '/' :: 'a' :: '>' :: post)).drop (k + 4)) := by
  have hurl : countLeading (fun c => !(isQuoteChar c))
      ('/' :: (u' ++ ('"' :: '>' ::
        (m ++ ('<' :: '/' :: 'a' :: '>' :: post))))) = u'.length + 1 := by
    have h0 := countLeading_append_stop (fun c => !(isQuoteChar c))
      ('/' :: u') '"' ('>' :: (m ++ ('<' :: '/' :: 'a' :: '>' :: post)))
      (fun c hc => by
        rcases List.mem_cons.mp hc with rfl | hc2
        · rfl
        · simp [hq c hc2])
      rfl
    simpa using h0
  have hdropu : (u' ++ ('"' :: '>' ::
      (m ++ ('<' :: '/' :: 'a' :: '>' :: post)))).drop u'.length =
      '"' :: '>' :: (m ++ ('<' :: '/' :: 'a' :: '>' :: post)) :=
    List.drop_left _ _
  have htakeu : (u' ++ ('"' :: '>' ::
      (m ++ ('<' :: '/' :: 'a' :: '>' :: post)))).take u'.length = u' :=
    List.take_left _ _
  have hgap2 : countLeading (fun c => !(c == '>'))
      ('>' :: (m ++ ('<' :: '/' :: 'a' :: '>' :: post))) = 0 := rfl
  simp +decide [tryHrefTail, hurl, hdropu, htakeu, hgap2, hk]

theorem findSub_tail_exists (m post : List Char) :
    ∃ k, findSub (pyLower (m ++ ('<' :: '/' :: 'a' :: '>' :: post)))
      (cs "</a>") = some k := by
  apply findSub_isSome_of_headMatches (p := (pyLower m).length)
  rw [pyLower_append, List.drop_left]
  have hP : pyLower ('<' :: '/' :: 'a' :: '>' :: post) =
      '<' :: '/' :: 'a' :: '>' :: pyLower post := rfl
  rw [hP]
  rfl

theorem tryTagAt_linkHtml_ne_none (u' m post : List Char)
    (hq : ∀ c ∈ u', isQuoteChar c = false) :
    tryTagAt (linkHtml ('/' :: u') m ++ post) ≠ none := by
  obtain ⟨k, hk⟩ := findSub_tail_exists m post
  have h1 := tryHrefTail_linkTail u' m post k hq hk
  have hcond : ('<' == '<' && Char.toLower 'a' == 'a' &&
      decide (countLeading isPySpace
        (' ' :: 'h' :: 'r' :: 'e' :: 'f' :: '=' :: '"' :: '/' ::
          (u' ++ ('"' :: '>' ::
            (m ++ ('<' :: '/' :: 'a' :: '>' :: post))))) ≥ 1)) = true := rfl
  have hdrop1 : ((' ' :: 'h' :: 'r' :: 'e' :: 'f' :: '=' :: '"' :: '/' ::
      (u' ++ ('"' :: '>' ::
        (m ++ ('<' :: '/' :: 'a' :: '>' :: post)))))).drop 1 =
      'h' :: 'r' :: 'e' :: 'f' :: '=' :: '"' :: '/' ::
        (u' ++ ('"' :: '>' :: (m ++ ('<' :: '/' :: 'a' :: '>' :: post)))) :=
    rfl
  rw [linkHtml_shape, tryTagAt, if_pos hcond, hdrop1]
  simp only []
  cases hQ : tryTagQ (' ' :: 'h' :: 'r' :: 'e' :: 'f' :: '=' :: '"' :: '/' ::
      (u' ++ ('"' :: '>' :: (m ++ ('<' :: '/' :: 'a' :: '>' :: post)))))
      (1 + countLeading (fun c => !(c == '>'))
        ('h' :: 'r' :: 'e' :: 'f' :: '=' :: '"' :: '/' ::
          (u' ++ ('"' :: '>' ::
            (m ++ ('<' :: '/' :: 'a' :: '>' :: post)))))) with
  | some r =>
    rcases r with ⟨x, y, z⟩
    simp [hQ]
  | none =>
    intro hcontra
    have hall := tryTagQ_none_all _ _ hQ 1 le_rfl (Nat.le_add_right 1 _)
    rw [hdrop1] at hall
    rw [hall] at h1
    cases h1

theorem mem_proseTexts_of {b : Block} {blocks : List Block} {x : List Char}
    (hb : b ∈ blocks) (hx : x ∈ blockTexts b) : x ∈ proseTexts blocks := by
  rw [proseTexts, List.mem_flatten]
  exact ⟨blockTexts b, List.mem_map_of_mem _ hb, hx⟩

theorem textLinks_splice_ne_nil (pid pre post u' m : List Char)
    (hpre : '<' ∉ pre)
    (hq : ∀ c ∈ u', isQuoteChar c = false) :
    textLinks pid (pre ++ linkHtml ('/' :: u') m ++ post) ≠ [] := by
  rw [textLinks]
  intro hmap
  rw [List.map_eq_nil_iff] at hmap
  have hscan : scanTags (pre ++ linkHtml ('/' :: u') m ++ post).length
      (pre ++ linkHtml ('/' :: u') m ++ post) ≠ [] := by
    rw [List.append_assoc, List.length_append,
      scanTags_pass pre hpre _ _]
    rw [linkHtml_shape]
    simp only [List.length_cons]
    apply scanTags_ne_nil
    rw [← linkHtml_shape]
    exact tryTagAt_linkHtml_ne_none u' m post hq
  exact hscan hmap

/-- C4: after the Applier wraps the anchor occurrence found at position
`p` of a paragraph text in a link carrying the internal URL `'/' :: u'`
(earlier prose anchor-free, all prose tag-free, URL quote-free), a
subsequent whole-article Link Removal restores the article's content
byte-identically — the inserted tag is discarded, the visible phrase is
kept in place with its original casing — and, because the Applier's
Ledger Sync replaced the article's rows by the extraction of the linked
content and the Removal then deletes the article's internal rows, no
ledger row for that URL and article survives. -/
theorem C4_round_trip_restore_and_ledger :
    ∀ (bs1 bs2 : List Block) (bid0 : Option (List Char))
      (t a u' tt : List Char) (aps : List (List Char)) (p : Nat)
      (ledger0 : List LinkRecord) (pid : List Char)
      (slugOf slugToId : List Char → Option (List Char)),
    pyStrip a = a → pyStrip ('/' :: u') = '/' :: u' → a ≠ [] →
    is_internal_url ('/' :: u') = true →
    (∀ c ∈ u', isQuoteChar c = false) →
    (∀ x ∈ proseTexts (bs1 ++ ⟨bid0, BlockData.paragraph t⟩ :: bs2),
      '<' ∉ x) →
    (∀ x ∈ proseTexts bs1, containsSub (pyLower x) (pyLower a) = false) →
    findSub (pyLower t) (pyLower a) = some p →
    applyInsertionsLoop (bs1 ++ ⟨bid0, BlockData.paragraph t⟩ :: bs2)
        [⟨a, '/' :: u', tt, aps, none⟩] =
      ⟨bs1 ++ ⟨bid0, BlockData.paragraph
          (t.take p ++ linkHtml ('/' :: u') ((t.drop p).take a.length) ++
            t.drop (p + a.length))⟩ :: bs2,
       [⟨(t.drop p).take a.length, '/' :: u', bid0⟩], []⟩ ∧
    ∃ L, remove_internal_links_from_post pid
        (bs1 ++ ⟨bid0, BlockData.paragraph
          (t.take p ++ linkHtml ('/' :: u') ((t.drop p).take a.length) ++
            t.drop (p + a.length))⟩ :: bs2)
        (save_post_links ledger0 pid
          (bs1 ++ ⟨bid0, BlockData.paragraph
            (t.take p ++ linkHtml ('/' :: u') ((t.drop p).take a.length) ++
              t.drop (p + a.length))⟩ :: bs2) slugOf slugToId).1 =
      (bs1 ++ ⟨bid0, BlockData.paragraph t⟩ :: bs2, L, 1) ∧
      ∀ rec2 ∈ L, ¬(rec2.post_id = pid ∧ rec2.url = '/' :: u') := by
  intro bs1 bs2 bid0 t a u' tt aps p ledger0 pid slugOf slugToId
  intro ha hustrip hane hint hquote hclean hbs1 hf
  have htmem : t ∈ proseTexts (bs1 ++ ⟨bid0, BlockData.paragraph t⟩ :: bs2) :=
    mem_proseTexts_of (List.mem_append_right _ (List.mem_cons_self _ _))
      (by simp [blockTexts])
  have htlt : '<' ∉ t := hclean t htmem
  have hwr := wrapped_needle_false a htlt
  have hsplice := find_eq_splice (u := '/' :: u') hwr hf
  have hns1 : ∀ x ∈ proseTexts bs1, noUnlinkedOcc a x = true := fun x hx =>
    noUnlinkedOcc_of_not_contains (hbs1 x hx)
  constructor
  · rw [applyInsertionsLoop_cons]
    simp only [ha, hustrip]
    rw [if_neg (by simp [List.isEmpty_iff, hane]),
      applyInsertionBlocks_skip_prefix a ('/' :: u') bs1 _ hns1,
      applyInsertionBlocks_paragraph_found bid0 bs2 hsplice]
    rfl
  · have hpre : '<' ∉ t.take p := fun hm => htlt (List.take_subset _ _ hm)
    have hpost : '<' ∉ t.drop (p + a.length) := fun hm =>
      htlt (List.drop_subset _ _ hm)
    have hmlt : '<' ∉ (t.drop p).take a.length := fun hm =>
      htlt (List.drop_subset _ _ (List.take_subset _ _ hm))
    have hmbeq : ∀ c ∈ (t.drop p).take a.length, (c == '<') = false := by
      intro c hc
      rw [beq_eq_false_iff_ne]
      intro he
      subst he
      exact hmlt hc
    have hqbeq : ∀ c ∈ u', (c == '"') = false := by
      intro c hc
      have h2 := hquote c hc
      rw [isQuoteChar] at h2
      exact (Bool.or_eq_false_iff.mp h2).1
    have hb1 : ∀ b ∈ bs1, ∀ x ∈ blockTexts b, '<' ∉ x := fun b hb x hx =>
      hclean x (mem_proseTexts_of (List.mem_append_left _ hb) hx)
    have hb2 : ∀ b ∈ bs2, ∀ x ∈ blockTexts b, '<' ∉ x := fun b hb x hx =>
      hclean x (mem_proseTexts_of
        (List.mem_append_right _ (List.mem_cons_of_mem _ hb)) hx)
    have hextr : extract_links_from_content
        (bs1 ++ ⟨bid0, BlockData.paragraph
          (t.take p ++ linkHtml ('/' :: u') ((t.drop p).take a.length) ++
            t.drop (p + a.length))⟩ :: bs2) pid ≠ [] := by
      intro hnil
      rw [extract_links_from_content, List.flatten_eq_nil_iff] at hnil
      have hbl := hnil (blockLinks pid ⟨bid0, BlockData.paragraph
          (t.take p ++ linkHtml ('/' :: u') ((t.drop p).take a.length) ++
            t.drop (p + a.length))⟩)
        (List.mem_map_of_mem _
          (List.mem_append_right _ (List.mem_cons_self _ _)))
      rw [blockLinks] at hbl
      exact textLinks_splice_ne_nil pid _ _ u' _ hpre hquote hbl
    rw [save_post_links]
    simp only []
    rw [if_neg (by
      simp only [List.isEmpty_iff]
      exact hextr)]
    rw [remove_internal_round bs1 bs2 bid0 (t.take p) (t.drop (p + a.length))
      u' ((t.drop p).take a.length) pid _ hb1 hb2 hpre hpost hmbeq hqbeq]
    have hdd : (t.drop p).drop a.length = t.drop (p + a.length) := by
      rw [List.drop_drop, Nat.add_comm]
    have hrestore : t.take p ++ ((t.drop p).take a.length ++
        t.drop (p + a.length)) = t := by
      rw [← hdd, List.take_append_drop, List.take_append_drop]
    rw [hrestore]
    refine ⟨_, rfl, ?_⟩
    intro rec2 hrec
    rintro ⟨hp, hu⟩
    have hmf := List.mem_filter.mp hrec
    rcases List.mem_append.mp hmf.1 with hl | hr
    · have hcond := List.of_mem_filter
        (p := fun r : LinkRecord => !(r.post_id == pid)) hl
      simp [hp] at hcond
    · obtain ⟨r0, h0, hps, hus, hts⟩ :=
        resolve_fields _ slugOf slugToId rec2 hr
      have hint0 := (extract_fields _ pid r0 h0).2
      have hti : rec2.link_type_internal = true := by
        rw [hts, hint0, ← hus, hu]
        exact hint
      have hcond2 := hmf.2
      rw [hp, hti] at hcond2
      simp at hcond2

theorem C4_round_trip_restore_and_ledger_witness :
    (pyStrip (cs "golf swing") = cs "golf swing" ∧
     pyStrip ('/' :: cs "a/b") = '/' :: cs "a/b" ∧
     cs "golf swing" ≠ [] ∧
     is_internal_url ('/' :: cs "a/b") = true ∧
     (∀ c ∈ cs "a/b", isQuoteChar c = false) ∧
     (∀ x ∈ proseTexts
        ([] ++ ⟨none, BlockData.paragraph
          (cs "learn golf swing today")⟩ :: []),
       '<' ∉ x) ∧
     (∀ x ∈ proseTexts ([] : List Block),
       containsSub (pyLower x) (pyLower (cs "golf swing")) = false) ∧
     findSub (pyLower (cs "learn golf swing today"))
       (pyLower (cs "golf swing")) = some 6) ∧
    (applyInsertionsLoop
        ([] ++ ⟨none, BlockData.paragraph
          (cs "learn golf swing today")⟩ :: [])
        [⟨cs "golf swing", '/' :: cs "a/b", [], [], none⟩] =
      ⟨[] ++ ⟨none, BlockData.paragraph
          ((cs "learn golf swing today").take 6 ++
            linkHtml ('/' :: cs "a/b")
              (((cs "learn golf swing today").drop 6).take
                (cs "golf swing").length) ++
            (cs "learn golf swing today").drop
              (6 + (cs "golf swing").length))⟩ :: [],
       [⟨((cs "learn golf swing today").drop 6).take
           (cs "golf swing").length, '/' :: cs "a/b", none⟩], []⟩ ∧
     ∃ L, remove_internal_links_from_post (cs "p1")
        ([] ++ ⟨none, BlockData.paragraph
          ((cs "learn golf swing today").take 6 ++
            linkHtml ('/' :: cs "a/b")
              (((cs "learn golf swing today").drop 6).take
                (cs "golf swing").length) ++
            (cs "learn golf swing today").drop
              (6 + (cs "golf swing").length))⟩ :: [])
        (save_post_links [] (cs "p1")
          ([] ++ ⟨none, BlockData.paragraph
            ((cs "learn golf swing today").take 6 ++
              linkHtml ('/' :: cs "a/b")
                (((cs "learn golf swing today").drop 6).take
                  (cs "golf swing").length) ++
              (cs "learn golf swing today").drop
                (6 + (cs "golf swing").length))⟩ :: [])
          (fun _ => none) (fun _ => none)).1 =
      ([] ++ ⟨none, BlockData.paragraph
        (cs "learn golf swing today")⟩ :: [], L, 1) ∧
      ∀ rec2 ∈ L,
        ¬(rec2.post_id = cs "p1" ∧ rec2.url = '/' :: cs "a/b")) :=
  ⟨⟨by decide, by decide, by decide, by decide, by decide, by decide,
    by decide, by decide⟩,
   C4_round_trip_restore_and_ledger [] [] none
     (cs "learn golf swing today") (cs "golf swing") (cs "a/b") [] [] 6
     [] (cs "p1") (fun _ => none) (fun _ => none)
     (by decide) (by decide) (by decide) (by decide) (by decide) (by decide)
     (by decide) (by decide)⟩

end BlogLink
